import Mathlib

/-!
Verification of the QuickReader ingestion pipeline.

The TypeScript sources are embedded shallowly: strings become `List Char`,
byte buffers become `List Nat`, and each function of the source is mirrored
by a Lean definition of the same name (file and line references are given in
the doc comments).  All definitions are executable.
-/

set_option maxRecDepth 4000

namespace QR

/-- A word token: the model of a JavaScript string. -/
abbrev Tok := List Char

/-! ## Word segmenter (src/lib/utils/text-parser.ts) -/

/-- Character class of the regex `/^[(\[{"“‘]+$/` (text-parser.ts:252). -/
def leadingChars : List Char := ['(', '[', '\x7b', '\"', '“', '‘']

/-- Character class of the regex `/^[)\]}"'”’.,;:!?]+$/` (text-parser.ts:253). -/
def trailingChars : List Char :=
  [')', ']', '\x7d', '\"', '\'', '”', '’', '.', ',', ';', ':', '!', '?']

/-- `leadingPunctuation.test(word)`: the token is one or more opening brackets/quotes. -/
def isLeadingPunct (t : Tok) : Bool := !t.isEmpty && t.all (· ∈ leadingChars)

/-- `trailingPunctuation.test(word)`: the token is one or more closing/terminal marks. -/
def isTrailingPunct (t : Tok) : Bool := !t.isEmpty && t.all (· ∈ trailingChars)

/-- The inner `while` loops of `mergeOrphanedPunctuation` (text-parser.ts:266-269 and
280-283): absorb every consecutive trailing-punctuation token into `m`. -/
def absorbTrailing (m : Tok) : List Tok → Tok × List Tok
  | [] => (m, [])
  | t :: r => if isTrailingPunct t then absorbTrailing (m ++ t) r else (m, t :: r)

theorem absorbTrailing_spec (m : Tok) (l : List Tok) :
    absorbTrailing m l =
      (m ++ (l.takeWhile isTrailingPunct).flatten, l.dropWhile isTrailingPunct) := by
  induction l generalizing m with
  | nil => simp [absorbTrailing]
  | cons t r ih =>
    simp only [absorbTrailing, List.takeWhile, List.dropWhile]
    cases h : isTrailingPunct t with
    | true => simp [ih, h]
    | false => simp [h]

theorem length_dropWhile_le {α : Type} (p : α → Bool) (l : List α) :
    (l.dropWhile p).length ≤ l.length := by
  induction l with
  | nil => simp
  | cons a l ih =>
    rw [List.dropWhile_cons]
    split
    · simp only [List.length_cons]; omega
    · simp

theorem absorbTrailing_suffix_len (m : Tok) (l : List Tok) :
    (absorbTrailing m l).2.length ≤ l.length := by
  rw [absorbTrailing_spec]
  exact length_dropWhile_le isTrailingPunct l

/-- `mergeOrphanedPunctuation` (text-parser.ts:248-294).  A leading-punctuation token
is glued onto the following token (then absorbs any trailing punctuation after it);
a token followed by trailing punctuation absorbs the whole chain; anything else is
kept as is. -/
def mergeOrphanedPunctuation : List Tok → List Tok
  | [] => []
  | [w] => [w]
  | w :: n :: rest2 =>
    if isLeadingPunct w then
      (absorbTrailing (w ++ n) rest2).1 ::
        mergeOrphanedPunctuation (absorbTrailing (w ++ n) rest2).2
    else if isTrailingPunct n then
      (absorbTrailing w (n :: rest2)).1 ::
        mergeOrphanedPunctuation (absorbTrailing w (n :: rest2)).2
    else w :: mergeOrphanedPunctuation (n :: rest2)
termination_by l => l.length
decreasing_by
  · have := absorbTrailing_suffix_len (w ++ n) rest2
    simp only [List.length_cons] at *
    omega
  · have := absorbTrailing_suffix_len w (n :: rest2)
    simp only [List.length_cons] at *
    omega
  · simp

/-- Instrumented variant of `mergeOrphanedPunctuation` that returns, instead of each
merged token, the contiguous run of input tokens it was concatenated from. -/
def mergeRuns : List Tok → List (List Tok)
  | [] => []
  | [w] => [[w]]
  | w :: n :: rest2 =>
    if isLeadingPunct w then
      ([w, n] ++ (rest2.takeWhile isTrailingPunct)) ::
        mergeRuns (rest2.dropWhile isTrailingPunct)
    else if isTrailingPunct n then
      ([w] ++ ((n :: rest2).takeWhile isTrailingPunct)) ::
        mergeRuns ((n :: rest2).dropWhile isTrailingPunct)
    else [w] :: mergeRuns (n :: rest2)
termination_by l => l.length
decreasing_by
  · have := length_dropWhile_le isTrailingPunct rest2
    simp only [List.length_cons] at *
    omega
  · have := length_dropWhile_le isTrailingPunct (n :: rest2)
    simp only [List.length_cons] at *
    omega
  · simp

theorem mergeRuns_flatten (l : List Tok) : (mergeRuns l).flatten = l := by
  induction l using mergeRuns.induct with
  | case1 => simp [mergeRuns]
  | case2 w => simp [mergeRuns]
  | case3 w n rest2 h ih =>
    simp only [mergeRuns, if_pos h, List.flatten_cons, ih]
    simp [List.takeWhile_append_dropWhile]
  | case4 w n rest2 h h2 ih =>
    simp only [mergeRuns, if_neg h, if_pos h2, List.flatten_cons, ih]
    simp [List.takeWhile_append_dropWhile]
  | case5 w n rest2 h h2 ih =>
    simp only [mergeRuns, if_neg h, if_neg h2, List.flatten_cons, ih]
    simp

theorem mergeRuns_map_flatten (l : List Tok) :
    (mergeRuns l).map (fun r => r.flatten) = mergeOrphanedPunctuation l := by
  induction l using mergeRuns.induct with
  | case1 => simp [mergeRuns, mergeOrphanedPunctuation]
  | case2 w => simp [mergeRuns, mergeOrphanedPunctuation]
  | case3 w n rest2 h ih =>
    simp only [mergeRuns, mergeOrphanedPunctuation, if_pos h, List.map_cons, ih,
      absorbTrailing_spec]
    simp
  | case4 w n rest2 h h2 ih =>
    simp only [mergeRuns, mergeOrphanedPunctuation, if_neg h, if_pos h2, List.map_cons, ih,
      absorbTrailing_spec]
    simp
  | case5 w n rest2 h h2 ih =>
    simp only [mergeRuns, mergeOrphanedPunctuation, if_neg h, if_neg h2, List.map_cons, ih]
    simp

theorem mergeRuns_ne_nil (l : List Tok) : ∀ r ∈ mergeRuns l, r ≠ [] := by
  induction l using mergeRuns.induct with
  | case1 => simp [mergeRuns]
  | case2 w => simp [mergeRuns]
  | case3 w n rest2 h ih =>
    simp only [mergeRuns, if_pos h]
    intro r hr
    rcases List.mem_cons.mp hr with hr | hr
    · subst hr; simp
    · exact ih r hr
  | case4 w n rest2 h h2 ih =>
    simp only [mergeRuns, if_neg h, if_pos h2]
    intro r hr
    rcases List.mem_cons.mp hr with hr | hr
    · subst hr; simp
    · exact ih r hr
  | case5 w n rest2 h h2 ih =>
    simp only [mergeRuns, if_neg h, if_neg h2]
    intro r hr
    rcases List.mem_cons.mp hr with hr | hr
    · subst hr; simp
    · exact ih r hr

/-- A list of nonempty lists is at most as long as its concatenation. -/
theorem length_le_length_flatten {α : Type} (L : List (List α)) (h : ∀ r ∈ L, r ≠ []) :
    L.length ≤ L.flatten.length := by
  induction L with
  | nil => simp
  | cons r rs ih =>
    have hr : r ≠ [] := h r (by simp)
    have h1 : 1 ≤ r.length := by
      cases r with
      | nil => exact absurd rfl hr
      | cons a as => simp
    have := ih (fun q hq => h q (by simp [hq]))
    simp only [List.flatten_cons, List.length_append, List.length_cons]
    omega

/-- C2: for every list of word tokens `W`, `mergeOrphanedPunctuation W` has at most
`W.length` tokens, and every output token is the exact concatenation of a contiguous
run of consecutive input tokens, the runs partitioning the input in order (witnessed
by `mergeRuns W`: its flattening is `W`, its per-run concatenations are the output,
and every run is nonempty). -/
theorem C2_mergeOrphanedPunctuation_runs : ∀ W : List Tok,
    (mergeOrphanedPunctuation W).length ≤ W.length ∧
    ∃ runs : List (List Tok), runs.flatten = W ∧
      runs.map (fun r => r.flatten) = mergeOrphanedPunctuation W ∧
      ∀ r ∈ runs, r ≠ [] := by
  intro W
  refine ⟨?_, mergeRuns W, mergeRuns_flatten W, mergeRuns_map_flatten W, mergeRuns_ne_nil W⟩
  have h1 : (mergeOrphanedPunctuation W).length = (mergeRuns W).length := by
    rw [← mergeRuns_map_flatten]; simp
  have h2 := length_le_length_flatten (mergeRuns W) (mergeRuns_ne_nil W)
  rw [mergeRuns_flatten] at h2
  omega

/-! ### Dash/ellipsis splitting (text-parser.ts:303-336, identical copy in
epub-parser.ts:33-65) -/

/-- `word.split('-')` (text-parser.ts:305): split at every separator character,
keeping empty pieces, as the JavaScript `String.prototype.split` does. -/
def splitChar (sep : Char) : List Char → List Tok
  | [] => [[]]
  | c :: rest =>
    if c = sep then [] :: splitChar sep rest
    else
      match splitChar sep rest with
      | [] => [[c]]
      | p :: ps => (c :: p) :: ps

/-- `splitPattern.test(word)` for `/(—|–|…|\.\.\.)/` (text-parser.ts:314-316): does the
token contain an em-dash, en-dash, ellipsis character, or a literal `...`? -/
def hasDashMark : List Char → Bool
  | [] => false
  | c :: rest =>
    (c == '—') || (c == '–') || (c == '…') ||
      ((c == '.') && (rest.take 2 == ['.', '.'])) || hasDashMark rest

/-- `word.split(splitPattern)` with the separator group captured
(text-parser.ts:321): the resulting piece list contains the separators inline,
with (possibly empty) text pieces between them, scanning left to right with the
`...` alternative consuming three dots at once. -/
def dashSplitGo (cur : Tok) : List Char → List Tok
  | [] => [cur]
  | c :: rest =>
    if c = '—' ∨ c = '–' ∨ c = '…' then
      cur :: [c] :: dashSplitGo [] rest
    else if c = '.' ∧ rest.take 2 = ['.', '.'] then
      cur :: ['.', '.', '.'] :: dashSplitGo [] (rest.drop 2)
    else dashSplitGo (cur ++ [c]) rest
termination_by l => l.length
decreasing_by
  · simp
  · have := List.length_drop 2 rest
    simp only [List.length_cons] at *
    omega
  · simp

/-- Append `p` to the last element of `l`; if `l` is empty the piece is dropped
(the `if (result.length > 0)` guard at text-parser.ts:327). -/
def appendToLast (p : Tok) : List Tok → List Tok
  | [] => []
  | [x] => [x ++ p]
  | x :: xs => x :: appendToLast p xs

/-- One iteration of the `for` loop over the split pieces (text-parser.ts:323-333):
separators are reattached to the previously produced token (or dropped when there is
none); nonempty text pieces are pushed. -/
def dashFoldStep (result : List Tok) (part : Tok) : List Tok :=
  if part = ['—'] ∨ part = ['–'] ∨ part = ['…'] ∨ part = ['.', '.', '.'] then
    appendToLast part result
  else if part ≠ [] then result ++ [part]
  else result

/-- The whole loop of text-parser.ts:323-333. -/
def dashFold (parts : List Tok) : List Tok := parts.foldl dashFoldStep []

/-- `splitOnDashes` (text-parser.ts:303-336): three-or-more hyphen-separated parts
are split with the hyphen reattached (dropping pieces that end up empty or a bare
hyphen); otherwise the token is split on em-dash/en-dash/ellipsis/`...` with the
mark reattached to the preceding produced token; a token with no marks is returned
unchanged. -/
def splitOnDashes (w : Tok) : List Tok :=
  let hyphenParts := splitChar '-' w
  if 2 < hyphenParts.length then
    (hyphenParts.mapIdx fun i p =>
        if i < hyphenParts.length - 1 then p ++ ['-'] else p).filter
      fun q => !q.isEmpty && q != ['-']
  else if !hasDashMark w then [w]
  else (dashFold (dashSplitGo [] w)).filter fun q => !q.isEmpty

/-- Does the token begin with one of the dash/ellipsis separators?  (The first
position at which the regex alternation `(—|–|…|\.\.\.)` can match is position 0.) -/
def startsWithDashMark : List Char → Bool
  | [] => false
  | c :: rest =>
    (c == '—') || (c == '–') || (c == '…') || ((c == '.') && (rest.take 2 == ['.', '.']))

/-- Join token pieces with a separator character between them (the inverse of
`splitChar`). -/
def joinSep (sep : Char) : List Tok → Tok
  | [] => []
  | [p] => p
  | p :: ps => p ++ sep :: joinSep sep ps

theorem splitChar_ne_nil (sep : Char) (w : List Char) : splitChar sep w ≠ [] := by
  cases w with
  | nil => simp [splitChar]
  | cons c rest =>
    simp only [splitChar]
    split
    · simp
    · split <;> simp

theorem joinSep_splitChar (sep : Char) (w : List Char) :
    joinSep sep (splitChar sep w) = w := by
  induction w with
  | nil => simp [splitChar, joinSep]
  | cons c rest ih =>
    simp only [splitChar]
    split
    · subst c
      cases h : splitChar sep rest with
      | nil => exact absurd h (splitChar_ne_nil sep rest)
      | cons p ps => rw [h] at ih; simp [joinSep, ← ih]
    · cases h : splitChar sep rest with
      | nil => exact absurd h (splitChar_ne_nil sep rest)
      | cons p ps =>
        rw [h] at ih
        cases ps with
        | nil => simp_all [joinSep]
        | cons q qs => simp_all [joinSep]

theorem splitChar_not_mem (sep : Char) (w : List Char) :
    ∀ p ∈ splitChar sep w, sep ∉ p := by
  induction w with
  | nil => simp [splitChar]
  | cons c rest ih =>
    simp only [splitChar]
    split
    · intro p hp
      rcases List.mem_cons.mp hp with h | h
      · subst h; simp
      · exact ih p h
    · cases h : splitChar sep rest with
      | nil => exact absurd h (splitChar_ne_nil sep rest)
      | cons q qs =>
        rw [h] at ih
        intro p hp
        rcases List.mem_cons.mp hp with hh | hh
        · subst hh
          intro hmem
          rcases List.mem_cons.mp hmem with hc | hc
          · simp_all
          · exact ih q (by simp) hc
        · exact ih p (by simp [hh])

theorem mapIdx_eq_map_of_lt {α β : Type} (f : ℕ → α → β) (g : α → β) :
    ∀ l : List α, (∀ i a, i < l.length → f i a = g a) → l.mapIdx f = l.map g := by
  intro l
  induction l using List.reverseRecOn with
  | nil => simp
  | append_singleton init e ih =>
    intro hfa
    rw [List.mapIdx_append_one, ih (fun i a hi => hfa i a (by simp; omega)),
      hfa init.length e (by simp)]
    simp

/-- The hyphen re-attachment map `hyphenParts.map((part, i) => i < length - 1 ?
part + '-' : part)` (text-parser.ts:308-309) in head/last form. -/
theorem mapIdx_hyphen (parts : List Tok) (h : parts ≠ []) :
    (parts.mapIdx fun i p => if i < parts.length - 1 then p ++ ['-'] else p) =
      parts.dropLast.map (· ++ ['-']) ++ [parts.getLast?.getD []] := by
  obtain ⟨init, e, rfl⟩ := (List.eq_nil_or_concat' parts).resolve_left h
  rw [List.mapIdx_append_one]
  have h1 : (init ++ [e]).length - 1 = init.length := by simp
  have h2 : List.mapIdx (fun i p => if i < (init ++ [e]).length - 1 then p ++ ['-'] else p) init =
      init.map (· ++ ['-']) := by
    apply mapIdx_eq_map_of_lt
    intro i a hi
    rw [h1, if_pos hi]
  rw [h2, h1, if_neg (by omega)]
  simp

/-- Round trip of the 3-plus-hyphen-parts branch: when every part except possibly
the last is nonempty, no piece is dropped by the filter and the concatenation of the
produced tokens is the original hyphen-joined token. -/
theorem hyphen_branch_flatten (parts : List Tok) (h : parts ≠ [])
    (hsep : ∀ p ∈ parts, '-' ∉ p) (hne : ∀ p ∈ parts.dropLast, p ≠ []) :
    ((parts.dropLast.map (· ++ ['-']) ++ [parts.getLast?.getD []]).filter
        fun q => !q.isEmpty && q != ['-']).flatten = joinSep '-' parts := by
  induction parts with
  | nil => exact absurd rfl h
  | cons p ps ih =>
    cases ps with
    | nil =>
      by_cases hp : p = []
      · subst hp; simp [joinSep]
      · have hq : (!p.isEmpty && p != ['-']) = true := by
          have hne2 : p ≠ ['-'] := by
            intro he
            exact hsep p (by simp) (by simp [he])
          simp [List.isEmpty_iff, hp, hne2]
        simp [joinSep, List.filter_cons, hq]
    | cons q qs =>
      have hp : p ≠ [] := hne p (by rw [List.dropLast_cons₂]; exact List.mem_cons_self _ _)
      have hkeep : (!(p ++ ['-']).isEmpty && (p ++ ['-']) != ['-']) = true := by
        have hne2 : p ++ ['-'] ≠ ['-'] := by
          intro he
          cases p with
          | nil => exact hp rfl
          | cons a as => simp at he
        simp [List.isEmpty_iff, hne2]
      have ihr := ih (by simp)
        (fun r hr => hsep r (List.mem_cons_of_mem p hr))
        (fun r hr => hne r (by rw [List.dropLast_cons₂]; exact List.mem_cons_of_mem _ hr))
      simp only [List.dropLast_cons₂, List.map_cons, List.cons_append, List.filter_cons, hkeep,
        if_true, List.flatten_cons, List.getLast?_cons_cons]
      rw [ihr]
      simp [joinSep]

/-- If the 3-plus-hyphen-parts branch produced no token at all, every split part
was empty. -/
theorem hyphen_branch_empty (parts : List Tok)
    (hsep : ∀ p ∈ parts, '-' ∉ p)
    (hempty : (parts.dropLast.map (· ++ ['-']) ++ [parts.getLast?.getD []]).filter
        (fun q => !q.isEmpty && q != ['-']) = []) :
    ∀ p ∈ parts, p = [] := by
  induction parts with
  | nil => simp
  | cons p ps ih =>
    cases ps with
    | nil =>
      intro r hr
      rcases List.mem_cons.mp hr with hr | hr
      · subst hr
        by_contra hp
        have hne2 : r ≠ ['-'] := by
          intro he
          exact hsep r (by simp) (by simp [he])
        simp [List.filter_cons, List.isEmpty_iff, hp, hne2] at hempty
      · simp at hr
    | cons q qs =>
      have hpe : p = [] := by
        by_contra hp
        have hkeep : (!(p ++ ['-']).isEmpty && (p ++ ['-']) != ['-']) = true := by
          have hne2 : p ++ ['-'] ≠ ['-'] := by
            intro he
            cases p with
            | nil => exact hp rfl
            | cons a as => simp at he
          simp [List.isEmpty_iff, hne2]
        rw [List.dropLast_cons₂] at hempty
        simp only [List.map_cons, List.cons_append, List.filter_cons, hkeep, if_true] at hempty
        cases hempty
      have hrest := ih (fun r hr => hsep r (List.mem_cons_of_mem p hr))
        (by
          rw [List.dropLast_cons₂] at hempty
          subst hpe
          simp only [List.map_cons, List.nil_append, List.cons_append, List.filter_cons] at hempty
          simp only [List.getLast?_cons_cons] at hempty ⊢
          simpa using hempty)
      intro r hr
      rcases List.mem_cons.mp hr with hr | hr
      · subst hr; exact hpe
      · exact hrest r hr

/-- Joining all-empty parts with a separator yields a token of separator characters
only. -/
theorem joinSep_all_nil (sep : Char) (parts : List Tok) (h : ∀ p ∈ parts, p = []) :
    ∀ c ∈ joinSep sep parts, c = sep := by
  induction parts with
  | nil => simp [joinSep]
  | cons p ps ih =>
    cases ps with
    | nil =>
      intro c hc
      rw [h p (by simp)] at hc
      simp [joinSep] at hc
    | cons q qs =>
      intro c hc
      rw [show joinSep sep (p :: q :: qs) = p ++ sep :: joinSep sep (q :: qs) from rfl,
        h p (by simp)] at hc
      rcases List.mem_cons.mp (by simpa using hc) with hc | hc
      · exact hc
      · exact ih (fun r hr => h r (List.mem_cons_of_mem p hr)) c hc

theorem appendToLast_flatten (p : Tok) (l : List Tok) (h : l ≠ []) :
    (appendToLast p l).flatten = l.flatten ++ p := by
  induction l with
  | nil => exact absurd rfl h
  | cons x xs ih =>
    cases xs with
    | nil => simp [appendToLast]
    | cons y ys => simp [appendToLast, ih]

theorem appendToLast_ne_nil (p : Tok) (l : List Tok) (h : l ≠ []) :
    appendToLast p l ≠ [] := by
  cases l with
  | nil => exact absurd rfl h
  | cons x xs => cases xs <;> simp [appendToLast]

theorem appendToLast_entries (p : Tok) (l : List Tok) (h : ∀ x ∈ l, x ≠ []) :
    ∀ x ∈ appendToLast p l, x ≠ [] := by
  induction l with
  | nil => simp [appendToLast]
  | cons x xs ih =>
    cases xs with
    | nil =>
      intro y hy
      have hy2 : y = x ++ p := by simpa [appendToLast] using hy
      subst hy2
      have := h x (by simp)
      cases x with
      | nil => exact absurd rfl this
      | cons a as => simp
    | cons z zs =>
      intro y hy
      rw [show appendToLast p (x :: z :: zs) = x :: appendToLast p (z :: zs) from rfl] at hy
      rcases List.mem_cons.mp hy with hy | hy
      · subst hy; exact h _ (List.mem_cons_self _ _)
      · exact ih (fun r hr => h r (List.mem_cons_of_mem x hr)) y hy

theorem dashFoldStep_ne_nil (acc : List Tok) (part : Tok) (h : acc ≠ []) :
    dashFoldStep acc part ≠ [] := by
  unfold dashFoldStep
  split
  · exact appendToLast_ne_nil _ _ h
  · split
    · simp
    · exact h

theorem foldl_dashFoldStep_ne_nil (parts : List Tok) :
    ∀ acc : List Tok, acc ≠ [] → parts.foldl dashFoldStep acc ≠ [] := by
  induction parts with
  | nil => intro acc h; simpa using h
  | cons p ps ih =>
    intro acc h
    rw [List.foldl_cons]
    exact ih _ (dashFoldStep_ne_nil acc p h)

theorem foldl_dashFoldStep_flatten (parts : List Tok) :
    ∀ acc : List Tok, acc ≠ [] →
      (parts.foldl dashFoldStep acc).flatten = acc.flatten ++ parts.flatten := by
  induction parts with
  | nil => intro acc _; simp
  | cons p ps ih =>
    intro acc h
    rw [List.foldl_cons, ih _ (dashFoldStep_ne_nil acc p h)]
    unfold dashFoldStep
    split
    · rw [appendToLast_flatten _ _ h]; simp
    · split
      · simp
      · rename_i h1 h2
        have : p = [] := by simpa using h2
        subst this
        simp

theorem foldl_dashFoldStep_entries (parts : List Tok) :
    ∀ acc : List Tok, (∀ x ∈ acc, x ≠ []) →
      ∀ x ∈ parts.foldl dashFoldStep acc, x ≠ [] := by
  induction parts with
  | nil => intro acc h; simpa using h
  | cons p ps ih =>
    intro acc h
    rw [List.foldl_cons]
    refine ih _ ?_
    unfold dashFoldStep
    split
    · exact appendToLast_entries _ _ h
    · split
      · rename_i h1 h2
        intro x hx
        rcases List.mem_append.mp hx with hx | hx
        · exact h x hx
        · have : x = p := by simpa using hx
          subst this
          simpa using h2
      · exact h

theorem foldl_dashFoldStep_nil (parts : List Tok)
    (h : parts.foldl dashFoldStep [] = []) :
    ∀ p ∈ parts, p = ['—'] ∨ p = ['–'] ∨ p = ['…'] ∨ p = ['.', '.', '.'] ∨ p = [] := by
  induction parts with
  | nil => simp
  | cons p ps ih =>
    rw [List.foldl_cons] at h
    by_cases hsep : p = ['—'] ∨ p = ['–'] ∨ p = ['…'] ∨ p = ['.', '.', '.']
    · have hstep : dashFoldStep [] p = [] := by
        unfold dashFoldStep
        rw [if_pos hsep]
        rfl
      rw [hstep] at h
      intro r hr
      rcases List.mem_cons.mp hr with hr | hr
      · subst hr; tauto
      · exact ih h r hr
    · by_cases hp : p = []
      · have hstep : dashFoldStep [] p = [] := by
          unfold dashFoldStep
          rw [if_neg hsep, if_neg (by simpa using hp)]
        rw [hstep] at h
        intro r hr
        rcases List.mem_cons.mp hr with hr | hr
        · subst hr; tauto
        · exact ih h r hr
      · exfalso
        have hstep : dashFoldStep [] p = [p] := by
          unfold dashFoldStep
          rw [if_neg hsep, if_pos (by simpa using hp)]
          rfl
        rw [hstep] at h
        exact foldl_dashFoldStep_ne_nil ps [p] (by simp) h

theorem dashSplitGo_flatten (cur : Tok) (l : List Char) :
    (dashSplitGo cur l).flatten = cur ++ l := by
  induction cur, l using dashSplitGo.induct with
  | case1 cur => simp [dashSplitGo]
  | case2 cur c rest h ih =>
    rw [show dashSplitGo cur (c :: rest) = cur :: [c] :: dashSplitGo [] rest from by
      rw [dashSplitGo, if_pos h]]
    simp [ih]
  | case3 cur c rest h h2 ih =>
    rw [show dashSplitGo cur (c :: rest) = cur :: ['.', '.', '.'] :: dashSplitGo [] (rest.drop 2)
      from by rw [dashSplitGo, if_neg h, if_pos h2]]
    obtain ⟨hc, htake⟩ := h2
    subst hc
    simp only [List.flatten_cons, ih, List.nil_append]
    have : ('.' : Char) :: '.' :: List.drop 2 rest = List.take 2 rest ++ List.drop 2 rest := by
      rw [htake]
      simp
    simp only [List.cons_append, List.nil_append, List.append_assoc]
    rw [show ('.' :: '.' :: List.drop 2 rest : List Char) = List.take 2 rest ++ List.drop 2 rest
      from this, List.take_append_drop]
  | case4 cur c rest h h2 ih =>
    rw [show dashSplitGo cur (c :: rest) = dashSplitGo (cur ++ [c]) rest from by
      rw [dashSplitGo, if_neg h, if_neg h2]]
    simp [ih]

theorem dashSplitGo_head_cons (cur : Tok) (l : List Char) :
    ∃ t rest', dashSplitGo cur l = (cur ++ t) :: rest' := by
  induction cur, l using dashSplitGo.induct with
  | case1 cur => exact ⟨[], [], by simp [dashSplitGo]⟩
  | case2 cur c rest h ih =>
    exact ⟨[], [c] :: dashSplitGo [] rest, by rw [dashSplitGo, if_pos h]; simp⟩
  | case3 cur c rest h h2 ih =>
    exact ⟨[], ['.', '.', '.'] :: dashSplitGo [] (rest.drop 2), by
      rw [dashSplitGo, if_neg h, if_pos h2]; simp⟩
  | case4 cur c rest h h2 ih =>
    obtain ⟨t, rest', heq⟩ := ih
    exact ⟨[c] ++ t, rest', by
      rw [dashSplitGo, if_neg h, if_neg h2, heq]; simp⟩

/-- Round trip of the dash/ellipsis branch: when the token does not begin with a
separator mark, nothing is dropped and the concatenation of the produced tokens is
the input. -/
theorem dash_branch_flatten (w : List Char) (hmark : hasDashMark w = true)
    (hstart : startsWithDashMark w = false) :
    ((dashFold (dashSplitGo [] w)).filter fun q => !q.isEmpty).flatten = w := by
  cases w with
  | nil => simp [hasDashMark] at hmark
  | cons c r =>
    simp only [startsWithDashMark, Bool.or_eq_false_iff, Bool.and_eq_false_iff,
      beq_eq_false_iff_ne, ne_eq] at hstart
    obtain ⟨⟨⟨h1, h2⟩, h3⟩, h4⟩ := hstart
    have hsplit : dashSplitGo [] (c :: r) = dashSplitGo [c] r := by
      rw [dashSplitGo, if_neg (by tauto), if_neg (by
        intro ⟨hc, ht⟩
        rcases h4 with h4 | h4
        · exact h4 hc
        · exact h4 (by simpa using ht))]
      simp
    obtain ⟨t, rest', heq⟩ := dashSplitGo_head_cons [c] r
    have hfl := dashSplitGo_flatten [c] r
    rw [heq] at hfl
    simp only [List.flatten_cons, List.cons_append, List.nil_append, List.cons.injEq] at hfl
    have hr : t ++ rest'.flatten = r := hfl.2
    have hnotsep : ¬(([c] ++ t : Tok) = ['—'] ∨ ([c] ++ t : Tok) = ['–'] ∨
        ([c] ++ t : Tok) = ['…'] ∨ ([c] ++ t : Tok) = ['.', '.', '.']) := by
      intro hcase
      rcases hcase with hcase | hcase | hcase | hcase
      · simp at hcase; exact h1 hcase.1
      · simp at hcase; exact h2 hcase.1
      · simp at hcase; exact h3 hcase.1
      · simp only [List.cons_append, List.nil_append, List.cons.injEq] at hcase
        obtain ⟨hc, ht⟩ := hcase
        rcases h4 with h4 | h4
        · exact h4 hc
        · refine h4 ?_
          rw [← hr, ht]
          simp
    have hstep : dashFoldStep [] ([c] ++ t) = [[c] ++ t] := by
      unfold dashFoldStep
      rw [if_neg hnotsep, if_pos (by simp)]
      rfl
    have hentries : ∀ x ∈ dashFold (dashSplitGo [] (c :: r)), x ≠ [] := by
      rw [hsplit, heq]
      unfold dashFold
      rw [List.foldl_cons, hstep]
      exact foldl_dashFoldStep_entries rest' [[c] ++ t] (by simp)
    rw [List.filter_eq_self.mpr (fun a ha => by
      simpa [List.isEmpty_iff] using hentries a ha)]
    rw [hsplit, heq]
    unfold dashFold
    rw [List.foldl_cons, hstep, foldl_dashFoldStep_flatten rest' [[c] ++ t] (by simp)]
    simp [hr]

/-- If the dash/ellipsis branch produced nothing, the token consists of separator
characters only. -/
theorem dash_branch_empty (w : List Char)
    (hfold : (dashFold (dashSplitGo [] w)).filter (fun q => !q.isEmpty) = []) :
    ∀ ch ∈ w, ch ∈ ['—', '–', '…', '.'] := by
  have hentries := foldl_dashFoldStep_entries (dashSplitGo [] w) [] (by simp)
  have hfold0 : dashFold (dashSplitGo [] w) = [] := by
    cases h : dashFold (dashSplitGo [] w) with
    | nil => rfl
    | cons x xs =>
      exfalso
      have hx : x ≠ [] := by
        refine hentries x ?_
        rw [show List.foldl dashFoldStep [] (dashSplitGo [] w) = dashFold (dashSplitGo [] w)
          from rfl, h]
        simp
      have : (!x.isEmpty) = true := by simpa [List.isEmpty_iff] using hx
      rw [h] at hfold
      simp [List.filter_cons, this] at hfold
  have hall := foldl_dashFoldStep_nil _ hfold0
  intro ch hch
  have hw : ch ∈ (dashSplitGo [] w).flatten := by
    rw [dashSplitGo_flatten]
    simpa using hch
  obtain ⟨piece, hpmem, hpch⟩ := List.mem_flatten.mp hw
  rcases hall piece hpmem with hp | hp | hp | hp | hp <;> subst hp <;> simp_all

/-- C4 (amended): `splitOnDashes` splits a token with 3 or more hyphen-separated
parts into one token per part with the hyphen reattached to every part except the
last, except that parts that end up empty or a bare hyphen are dropped
(`"forty-nine-year-old"` gives `["forty-","nine-","year-","old"]`); a token with at
most 2 hyphen-separated parts and no dash/ellipsis mark is returned unchanged;
otherwise the token is split on em-dash, en-dash, ellipsis, or `...`, with the mark
reattached to the preceding produced token (`"consciousness—seemed"` gives
`["consciousness—","seemed"]`). -/
theorem C4_splitOnDashes :
    splitOnDashes "forty-nine-year-old".toList =
      ["forty-".toList, "nine-".toList, "year-".toList, "old".toList]
    ∧ splitOnDashes "consciousness—seemed".toList =
      ["consciousness—".toList, "seemed".toList]
    ∧ (∀ w : Tok, (splitChar '-' w).length ≤ 2 → hasDashMark w = false →
        splitOnDashes w = [w])
    ∧ (∀ w : Tok, 2 < (splitChar '-' w).length →
        splitOnDashes w = ((splitChar '-' w).dropLast.map (· ++ ['-']) ++
            [(splitChar '-' w).getLast?.getD []]).filter fun q => !q.isEmpty && q != ['-']) := by
  refine ⟨by decide, ?_, ?_, ?_⟩
  · simp [splitOnDashes, splitChar, hasDashMark, dashSplitGo, dashFold, dashFoldStep,
      appendToLast, Char.ext_iff]
  · intro w hlen hmark
    simp only [splitOnDashes]
    rw [if_neg (by omega), if_pos (by simp [hmark])]
  · intro w hlen
    simp only [splitOnDashes]
    rw [if_pos hlen, mapIdx_hyphen _ (splitChar_ne_nil '-' w)]

/-- C4 counterexample: `"a--b"` has 3 hyphen-separated parts, yet `splitOnDashes`
returns only 2 tokens (the middle part maps to a bare hyphen and is filtered out),
not one token per part as the claim states. -/
theorem C4_counterexample :
    (splitChar '-' "a--b".toList).length = 3 ∧
    splitOnDashes "a--b".toList = ["a-".toList, "b".toList] ∧
    (splitOnDashes "a--b".toList).length ≠ (splitChar '-' "a--b".toList).length := by
  decide

/-- Witness for C4: the general conjuncts applied at concrete inputs. -/
theorem C4_witness :
    splitOnDashes "ab".toList = ["ab".toList] ∧
    splitOnDashes "x-y-z".toList =
      ((splitChar '-' "x-y-z".toList).dropLast.map (· ++ ['-']) ++
          [(splitChar '-' "x-y-z".toList).getLast?.getD []]).filter
        fun q => !q.isEmpty && q != ['-'] :=
  ⟨C4_splitOnDashes.2.2.1 "ab".toList (by decide) (by decide),
   C4_splitOnDashes.2.2.2 "x-y-z".toList (by decide)⟩

/-- C5 (amended): `splitOnDashes` is total; its output can be empty only for tokens
consisting entirely of hyphen, dash, ellipsis, and dot characters (so any token
containing an ordinary character produces a non-empty output), and concatenating
the output reproduces the input characters provided no piece is dropped: for a
token with 3 or more hyphen-separated parts, when every part except possibly the
last is nonempty; otherwise, when the token does not begin with a dash/ellipsis
mark. -/
theorem C5_splitOnDashes : ∀ w : Tok,
    (splitOnDashes w = [] → ∀ c ∈ w, c ∈ (['-', '—', '–', '…', '.'] : List Char))
    ∧ ((∃ c ∈ w, c ∉ (['-', '—', '–', '…', '.'] : List Char)) → splitOnDashes w ≠ [])
    ∧ (2 < (splitChar '-' w).length → (∀ p ∈ (splitChar '-' w).dropLast, p ≠ []) →
        (splitOnDashes w).flatten = w)
    ∧ ((splitChar '-' w).length ≤ 2 → startsWithDashMark w = false →
        (splitOnDashes w).flatten = w) := by
  intro w
  have hempty : splitOnDashes w = [] → ∀ c ∈ w, c ∈ (['-', '—', '–', '…', '.'] : List Char) := by
    intro h c hc
    by_cases hlen : 2 < (splitChar '-' w).length
    · rw [show splitOnDashes w = ((splitChar '-' w).mapIdx fun i p =>
          if i < (splitChar '-' w).length - 1 then p ++ ['-'] else p).filter
            (fun q => !q.isEmpty && q != ['-'])
        from by simp only [splitOnDashes]; rw [if_pos hlen],
        mapIdx_hyphen _ (splitChar_ne_nil '-' w)] at h
      have hall := hyphen_branch_empty (splitChar '-' w) (splitChar_not_mem '-' w) h
      have hc2 : c ∈ joinSep '-' (splitChar '-' w) := by
        rw [joinSep_splitChar]; exact hc
      have := joinSep_all_nil '-' (splitChar '-' w) hall c hc2
      simp [this]
    · by_cases hmark : hasDashMark w
      · rw [show splitOnDashes w = (dashFold (dashSplitGo [] w)).filter (fun q => !q.isEmpty)
          from by simp only [splitOnDashes]; rw [if_neg hlen, if_neg (by simp [hmark])]] at h
        have := dash_branch_empty w h c hc
        simp at this
        rcases this with h1 | h1 | h1 | h1 <;> simp [h1]
      · rw [show splitOnDashes w = [w]
          from by
            simp only [splitOnDashes]
            rw [if_neg hlen, if_pos (by simpa using hmark)]] at h
        cases h
  refine ⟨hempty, ?_, ?_, ?_⟩
  · rintro ⟨c, hc, hnc⟩ hnil
    exact hnc (hempty hnil c hc)
  · intro hlen hne
    rw [show splitOnDashes w = ((splitChar '-' w).mapIdx fun i p =>
        if i < (splitChar '-' w).length - 1 then p ++ ['-'] else p).filter
          (fun q => !q.isEmpty && q != ['-'])
      from by simp only [splitOnDashes]; rw [if_pos hlen],
      mapIdx_hyphen _ (splitChar_ne_nil '-' w),
      hyphen_branch_flatten (splitChar '-' w) (splitChar_ne_nil '-' w)
        (splitChar_not_mem '-' w) hne,
      joinSep_splitChar]
  · intro hlen hstart
    by_cases hmark : hasDashMark w
    · rw [show splitOnDashes w = (dashFold (dashSplitGo [] w)).filter (fun q => !q.isEmpty)
        from by simp only [splitOnDashes]; rw [if_neg (by omega), if_neg (by simp [hmark])]]
      exact dash_branch_flatten w hmark hstart
    · rw [show splitOnDashes w = [w]
        from by
          simp only [splitOnDashes]
          rw [if_neg (by omega), if_pos (by simpa using hmark)]]
      simp

/-- C5 counterexample: the nonempty token `"--"` produces the empty token list
(all hyphen-split parts are empty or a bare hyphen and are filtered out), refuting
non-emptiness of the output, and hence also the round trip, for non-empty input. -/
theorem C5_counterexample : (['-', '-'] : Tok) ≠ [] ∧ splitOnDashes ['-', '-'] = [] := by
  decide

/-- Witness for C5: the conjuncts applied at concrete inputs. -/
theorem C5_witness :
    (∀ c ∈ (['-', '-'] : Tok), c ∈ (['-', '—', '–', '…', '.'] : List Char)) ∧
    splitOnDashes "hello".toList ≠ [] ∧
    (splitOnDashes "x-y-z".toList).flatten = "x-y-z".toList ∧
    (splitOnDashes "ab".toList).flatten = "ab".toList :=
  ⟨(C5_splitOnDashes ['-', '-']).1 (by decide),
   (C5_splitOnDashes "hello".toList).2.1 ⟨'h', by decide, by decide⟩,
   (C5_splitOnDashes "x-y-z".toList).2.2.1 (by decide) (by decide),
   (C5_splitOnDashes "ab".toList).2.2.2 (by decide) (by decide)⟩

/-! ## Plain-text parsing (text-parser.ts:342-404) and boundary lookups
(text-parser.ts:409-450) -/

/-- The JavaScript regex class `\s` (used by `\n\s*\n`, `\s+`, and `trim()`). -/
def jsWs (c : Char) : Bool :=
  decide (c = '\t' ∨ c = '\n' ∨ c = '\x0b' ∨ c = '\x0c' ∨ c = '\r' ∨ c = ' ' ∨
    c = ' ' ∨ c = ' ' ∨ (' ' ≤ c ∧ c ≤ ' ') ∨ c = ' ' ∨
    c = ' ' ∨ c = ' ' ∨ c = ' ' ∨ c = '　' ∨ c = '﻿')

/-- `String.prototype.trim()`: drop whitespace from both ends. -/
def trim (s : List Char) : List Char :=
  ((s.dropWhile jsWs).reverse.dropWhile jsWs).reverse

/-- Position of the last `'\n'` inside the leading whitespace run of `l`
(`none` when the leading whitespace run contains no newline).  This captures the
greedy backtracking behaviour of `\n\s*\n`: after an initial newline the `\s*`
extends to the last newline of the whitespace run. -/
def lastNlInRun : List Char → Option Nat
  | [] => none
  | c :: r =>
    if jsWs c then
      match lastNlInRun r with
      | some k => some (k + 1)
      | none => if c = '\n' then some 0 else none
    else none

/-- `text.split(/\n\s*\n/)` (text-parser.ts:348): scan for a newline whose following
whitespace run contains another newline; the separator extends to the last such
newline, the next paragraph starts right after it. -/
def splitParasGo (cur : List Char) : List Char → List (List Char)
  | [] => [cur]
  | c :: rest =>
    if c = '\n' then
      match lastNlInRun rest with
      | some k => cur :: splitParasGo [] (rest.drop (k + 1))
      | none => splitParasGo (cur ++ [c]) rest
    else splitParasGo (cur ++ [c]) rest
termination_by l => l.length
decreasing_by
  · have := List.length_drop (k + 1) rest
    simp only [List.length_cons] at *
    omega
  · simp
  · simp

/-- `paragraph.split(/\s+/)` up to empty pieces: split at every whitespace
character.  The source immediately filters out empty pieces
(text-parser.ts:359-362), after which splitting at single whitespace characters
and splitting at whitespace runs agree. -/
def wsTokensGo (cur : Tok) : List Char → List Tok
  | [] => [cur]
  | c :: rest =>
    if jsWs c then cur :: wsTokensGo [] rest
    else wsTokensGo (cur ++ [c]) rest

/-- `ParsedWord` (text-parser.ts:222-228).  `parseText` never sets the optional
`italic`/`bold` flags; absent flags are modelled as `false`. -/
structure ParsedWord where
  text : Tok
  paragraphIndex : Nat
  pageIndex : Nat
  italic : Bool
  bold : Bool
deriving DecidableEq

/-- `ParsedDocument` (text-parser.ts:233-240). -/
structure ParsedDocument where
  words : List ParsedWord
  paragraphStarts : List Nat
  pageStarts : List Nat
  totalWords : Nat
  totalParagraphs : Nat
  totalPages : Nat
deriving DecidableEq

/-- The mutable locals of the paragraph loop of `parseText` (`wordIndex` is always
`words.length` and is not duplicated). -/
structure PTState where
  words : List ParsedWord
  paragraphStarts : List Nat
  pageStarts : List Nat
  currentPage : Nat
  wordsOnCurrentPage : Nat
deriving DecidableEq

/-- `words.push({text, paragraphIndex, pageIndex: currentPage})` plus the counter
updates (text-parser.ts:367-376). -/
def pushWord (pIdx : Nat) (st : PTState) (t : Tok) : PTState :=
  { st with
    words := st.words ++ [⟨t, pIdx, st.currentPage, false, false⟩],
    wordsOnCurrentPage := st.wordsOnCurrentPage + 1 }

/-- `paragraphStarts.push(wordIndex)` (text-parser.ts:356). -/
def ptStartPara (st : PTState) : PTState :=
  { st with paragraphStarts := st.paragraphStarts ++ [st.words.length] }

/-- The tokens of one paragraph: `paragraph.trim().split(/\s+/).filter(w => w.length
> 0).flatMap(splitOnDashes)` (text-parser.ts:359-365). -/
def ptParaToks (p : List Char) : List Tok :=
  ((wsTokensGo [] (trim p)).filter fun t => 0 < t.length).flatMap splitOnDashes

/-- The page-break check after a paragraph (text-parser.ts:380-384). -/
def ptEndPara (target total pIdx : Nat) (st : PTState) : PTState :=
  if target ≤ st.wordsOnCurrentPage ∧ pIdx < total - 1 then
    { st with
      currentPage := st.currentPage + 1,
      pageStarts := st.pageStarts ++ [st.words.length],
      wordsOnCurrentPage := 0 }
  else st

/-- The `paragraphs.forEach` loop of `parseText` (text-parser.ts:354-385). -/
def parseTextGo (target total : Nat) : Nat → List (List Char) → PTState → PTState
  | _, [], st => st
  | pIdx, p :: rest, st =>
    parseTextGo target total (pIdx + 1) rest
      (ptEndPara target total pIdx ((ptParaToks p).foldl (pushWord pIdx) (ptStartPara st)))

/-- The final `pageIndex` rewrite loop of `parseText` (text-parser.ts:388-394). -/
def rewritePagesGo (pageStarts : List Nat) : Nat → Nat → List ParsedWord → List ParsedWord
  | _, _, [] => []
  | i, pIdx, w :: ws =>
    let pIdx' :=
      if pIdx < pageStarts.length - 1 ∧ pageStarts.getD (pIdx + 1) 0 ≤ i then pIdx + 1 else pIdx
    { w with pageIndex := pIdx' } :: rewritePagesGo pageStarts (i + 1) pIdx' ws

/-- `parseText` (text-parser.ts:342-404); the source's default for
`targetWordsPerPage` is 250. -/
def parseText (text : List Char) (target : Nat) : ParsedDocument :=
  let paragraphs := (splitParasGo [] text).filter fun p => 0 < (trim p).length
  let st := parseTextGo target paragraphs.length 0 paragraphs ⟨[], [], [0], 0, 0⟩
  let words := rewritePagesGo st.pageStarts 0 0 st.words
  ⟨words, st.paragraphStarts, st.pageStarts, words.length, paragraphs.length,
    st.pageStarts.length⟩

/-- The shared shape of the backward scans in `getParagraphForWordIndex` and
`getPageForWordIndex` (text-parser.ts:431-450): return the largest `i` with
`starts[i] ≤ wordIndex`, or 0 when there is none. -/
def lookupLastLEGo (starts : List Nat) (wordIndex : Nat) : Nat → Nat
  | 0 => 0
  | i + 1 => if starts.getD i 0 ≤ wordIndex then i else lookupLastLEGo starts wordIndex i

/-- `getParagraphForWordIndex` (text-parser.ts:431-438). -/
def getParagraphForWordIndex (doc : ParsedDocument) (wordIndex : Nat) : Nat :=
  lookupLastLEGo doc.paragraphStarts wordIndex doc.paragraphStarts.length

/-- `getPageForWordIndex` (text-parser.ts:443-450). -/
def getPageForWordIndex (doc : ParsedDocument) (wordIndex : Nat) : Nat :=
  lookupLastLEGo doc.pageStarts wordIndex doc.pageStarts.length

/-- Invariant of the paragraph loop of `parseText`. -/
def ptInv (st : PTState) : Prop :=
  st.pageStarts ≠ [] ∧ st.pageStarts.head? = some 0 ∧ List.Chain' (· < ·) st.pageStarts ∧
  st.pageStarts.getLast?.getD 0 + st.wordsOnCurrentPage ≤ st.words.length ∧
  List.Chain' (· ≤ ·) st.paragraphStarts ∧
  (∀ x ∈ st.paragraphStarts, x ≤ st.words.length) ∧
  (st.paragraphStarts = [] → st.words.length = 0) ∧
  (st.paragraphStarts ≠ [] → st.paragraphStarts.head? = some 0)

theorem foldl_pushWord_fields (pIdx : Nat) (toks : List Tok) :
    ∀ st : PTState,
      (toks.foldl (pushWord pIdx) st).words.length = st.words.length + toks.length ∧
      (toks.foldl (pushWord pIdx) st).paragraphStarts = st.paragraphStarts ∧
      (toks.foldl (pushWord pIdx) st).pageStarts = st.pageStarts ∧
      (toks.foldl (pushWord pIdx) st).currentPage = st.currentPage ∧
      (toks.foldl (pushWord pIdx) st).wordsOnCurrentPage =
        st.wordsOnCurrentPage + toks.length := by
  induction toks with
  | nil => intro st; simp
  | cons t ts ih =>
    intro st
    rw [List.foldl_cons]
    obtain ⟨i1, i2, i3, i4, i5⟩ := ih (pushWord pIdx st t)
    simp only [pushWord, List.length_append, List.length_cons, List.length_nil]
      at i1 i2 i3 i4 i5 ⊢
    exact ⟨by omega, i2, i3, i4, by omega⟩

theorem ptStartPara_inv (st : PTState) (h : ptInv st) : ptInv (ptStartPara st) := by
  obtain ⟨h1, h2, h3, h4, h5, h6, h7, h8⟩ := h
  refine ⟨h1, h2, h3, h4, ?_, ?_, ?_, ?_⟩
  · show List.Chain' (· ≤ ·) (st.paragraphStarts ++ [st.words.length])
    rw [List.chain'_append]
    refine ⟨h5, List.chain'_singleton _, ?_⟩
    intro x hx y hy
    simp only [List.head?_cons, Option.mem_def, Option.some.injEq] at hy
    subst hy
    exact h6 x (List.mem_of_mem_getLast? hx)
  · intro x hx
    have hx2 : x ∈ st.paragraphStarts ∨ x = st.words.length := by
      rcases List.mem_append.mp hx with hx | hx
      · exact Or.inl hx
      · exact Or.inr (by simpa using hx)
    rcases hx2 with hx | hx
    · exact h6 x hx
    · exact le_of_eq hx
  · intro hx
    exact absurd hx (by simp [ptStartPara])
  · intro _
    show (st.paragraphStarts ++ [st.words.length]).head? = some 0
    cases hps : st.paragraphStarts with
    | nil =>
      have := h7 hps
      simp [hps, this]
    | cons a as =>
      have := h8 (by simp [hps])
      simpa [hps] using this

theorem ptEndPara_inv (target total pIdx : Nat) (ht : 1 ≤ target) (st : PTState)
    (h : ptInv st) : ptInv (ptEndPara target total pIdx st) := by
  obtain ⟨h1, h2, h3, h4, h5, h6, h7, h8⟩ := h
  unfold ptEndPara
  split
  · rename_i hcond
    refine ⟨by simp, ?_, ?_, ?_, h5, h6, h7, h8⟩
    · show (st.pageStarts ++ [st.words.length]).head? = some 0
      cases hps : st.pageStarts with
      | nil => exact absurd hps h1
      | cons a as => simpa [hps] using h2
    · show List.Chain' (· < ·) (st.pageStarts ++ [st.words.length])
      rw [List.chain'_append]
      refine ⟨h3, List.chain'_singleton _, ?_⟩
      intro x hx y hy
      simp only [List.head?_cons, Option.mem_def, Option.some.injEq] at hy
      subst hy
      have hxl : st.pageStarts.getLast?.getD 0 = x := by
        rw [hx]; rfl
      omega
    · show (st.pageStarts ++ [st.words.length]).getLast?.getD 0 + 0 ≤ st.words.length
      rw [List.getLast?_concat]
      simp
  · exact ⟨h1, h2, h3, h4, h5, h6, h7, h8⟩

theorem parseTextGo_inv (target total : Nat) (ht : 1 ≤ target) :
    ∀ (paras : List (List Char)) (pIdx : Nat) (st : PTState), ptInv st →
      ptInv (parseTextGo target total pIdx paras st) := by
  intro paras
  induction paras with
  | nil => intro pIdx st h; exact h
  | cons p rest ih =>
    intro pIdx st h
    rw [parseTextGo]
    apply ih
    apply ptEndPara_inv target total pIdx ht
    have hInv1 := ptStartPara_inv st h
    obtain ⟨g1, g2, g3, g4, g5, g6, g7, g8⟩ := hInv1
    obtain ⟨f1, f2, f3, f4, f5⟩ :=
      foldl_pushWord_fields pIdx (ptParaToks p) (ptStartPara st)
    refine ⟨by rw [f3]; exact g1, by rw [f3]; exact g2, by rw [f3]; exact g3, ?_,
      by rw [f2]; exact g5, ?_, ?_, ?_⟩
    · rw [f3, f5, f1]; omega
    · intro x hx
      rw [f2] at hx
      have := g6 x hx
      omega
    · intro hx
      rw [f2] at hx
      exact absurd hx (by simp [ptStartPara])
    · intro hx
      rw [f2]
      exact g8 (by simp [ptStartPara])

theorem rewritePagesGo_length (ps : List Nat) :
    ∀ (i p : Nat) (ws : List ParsedWord), (rewritePagesGo ps i p ws).length = ws.length := by
  intro i p ws
  induction ws generalizing i p with
  | nil => simp [rewritePagesGo]
  | cons w rest ih => simp [rewritePagesGo, ih]

theorem lookupLastLEGo_lt (starts : List Nat) (w : Nat) :
    ∀ n, n ≤ starts.length → 0 < starts.length → lookupLastLEGo starts w n < starts.length := by
  intro n
  induction n with
  | zero => intro _ h; simpa [lookupLastLEGo] using h
  | succ i ih =>
    intro hn h
    rw [lookupLastLEGo]
    split
    · omega
    · exact ih (by omega) h

/-- C3 (amended): for every document produced by `parseText` with a positive page
target, `pageStarts` is nonempty, starts at 0 and is strictly increasing;
`paragraphStarts` is nondecreasing, and is nonempty and starts at 0 whenever the
document has at least one word (strict increase can fail: a paragraph whose tokens
all vanish in `splitOnDashes` repeats a boundary); and the boundary lookups
`getPageForWordIndex` and `getParagraphForWordIndex` always return an index inside
the respective table. -/
theorem C3_parseText_boundaries (text : List Char) (target : Nat) (ht : 1 ≤ target) :
    (parseText text target).pageStarts ≠ [] ∧
    (parseText text target).pageStarts.head? = some 0 ∧
    List.Chain' (· < ·) (parseText text target).pageStarts ∧
    List.Chain' (· ≤ ·) (parseText text target).paragraphStarts ∧
    (1 ≤ (parseText text target).totalWords →
      (parseText text target).paragraphStarts ≠ [] ∧
      (parseText text target).paragraphStarts.head? = some 0) ∧
    (∀ i, getPageForWordIndex (parseText text target) i <
      (parseText text target).pageStarts.length) ∧
    (∀ i, (parseText text target).paragraphStarts ≠ [] →
      getParagraphForWordIndex (parseText text target) i <
        (parseText text target).paragraphStarts.length) := by
  have hinit : ptInv ⟨[], [], [0], 0, 0⟩ := by
    refine ⟨by simp, by simp, by simp, by simp, by simp, by simp, by simp, by simp⟩
  have hinv := parseTextGo_inv target
    ((splitParasGo [] text).filter fun p => 0 < (trim p).length).length ht
    ((splitParasGo [] text).filter fun p => 0 < (trim p).length) 0 ⟨[], [], [0], 0, 0⟩ hinit
  obtain ⟨h1, h2, h3, h4, h5, h6, h7, h8⟩ := hinv
  have hdoc :
      parseText text target =
        { words :=
            rewritePagesGo
              (parseTextGo target
                ((splitParasGo [] text).filter fun p => 0 < (trim p).length).length 0
                ((splitParasGo [] text).filter fun p => 0 < (trim p).length)
                ⟨[], [], [0], 0, 0⟩).pageStarts 0 0
              (parseTextGo target
                ((splitParasGo [] text).filter fun p => 0 < (trim p).length).length 0
                ((splitParasGo [] text).filter fun p => 0 < (trim p).length)
                ⟨[], [], [0], 0, 0⟩).words,
          paragraphStarts :=
            (parseTextGo target
              ((splitParasGo [] text).filter fun p => 0 < (trim p).length).length 0
              ((splitParasGo [] text).filter fun p => 0 < (trim p).length)
              ⟨[], [], [0], 0, 0⟩).paragraphStarts,
          pageStarts :=
            (parseTextGo target
              ((splitParasGo [] text).filter fun p => 0 < (trim p).length).length 0
              ((splitParasGo [] text).filter fun p => 0 < (trim p).length)
              ⟨[], [], [0], 0, 0⟩).pageStarts,
          totalWords :=
            (rewritePagesGo
              (parseTextGo target
                ((splitParasGo [] text).filter fun p => 0 < (trim p).length).length 0
                ((splitParasGo [] text).filter fun p => 0 < (trim p).length)
                ⟨[], [], [0], 0, 0⟩).pageStarts 0 0
              (parseTextGo target
                ((splitParasGo [] text).filter fun p => 0 < (trim p).length).length 0
                ((splitParasGo [] text).filter fun p => 0 < (trim p).length)
                ⟨[], [], [0], 0, 0⟩).words).length,
          totalParagraphs := ((splitParasGo [] text).filter fun p => 0 < (trim p).length).length,
          totalPages :=
            (parseTextGo target
              ((splitParasGo [] text).filter fun p => 0 < (trim p).length).length 0
              ((splitParasGo [] text).filter fun p => 0 < (trim p).length)
              ⟨[], [], [0], 0, 0⟩).pageStarts.length } := rfl
  rw [hdoc]
  refine ⟨h1, h2, h3, h5, ?_, ?_, ?_⟩
  · intro hw
    simp only [rewritePagesGo_length] at hw
    constructor
    · intro hps
      have := h7 hps
      omega
    · refine h8 ?_
      intro hps
      have := h7 hps
      omega
  · intro i
    exact lookupLastLEGo_lt _ i _ (le_refl _) (by
      cases hps : (parseTextGo target
        ((splitParasGo [] text).filter fun p => 0 < (trim p).length).length 0
        ((splitParasGo [] text).filter fun p => 0 < (trim p).length)
        ⟨[], [], [0], 0, 0⟩).pageStarts with
      | nil => exact absurd hps h1
      | cons a as => simp [hps])
  · intro i hps
    refine lookupLastLEGo_lt _ i _ (le_refl _) ?_
    cases hq : (parseTextGo target
      ((splitParasGo [] text).filter fun p => 0 < (trim p).length).length 0
      ((splitParasGo [] text).filter fun p => 0 < (trim p).length)
      ⟨[], [], [0], 0, 0⟩).paragraphStarts with
    | nil => exact absurd hq hps
    | cons a as => simp [hq]

/-- C3 counterexample: on the two-paragraph input `"--\n\na"` the first paragraph's
only token `"--"` vanishes in `splitOnDashes`, so `parseText` repeats the boundary 0:
`paragraphStarts = [0, 0]` is not strictly increasing although the document has a
word. -/
theorem C3_counterexample :
    (parseText "--\n\na".toList 250).paragraphStarts = [0, 0] ∧
    1 ≤ (parseText "--\n\na".toList 250).totalWords ∧
    ¬ List.Chain' (· < ·) (parseText "--\n\na".toList 250).paragraphStarts := by
  have h : parseText "--\n\na".toList 250 =
      ⟨[⟨['a'], 1, 0, false, false⟩], [0, 0], [0], 1, 2, 1⟩ := by
    simp [parseText, splitParasGo, lastNlInRun, trim, jsWs, wsTokensGo, parseTextGo,
      ptStartPara, ptParaToks, ptEndPara, pushWord, rewritePagesGo, splitOnDashes, splitChar,
      hasDashMark, Char.ext_iff]
  rw [h]
  refine ⟨rfl, by simp, ?_⟩
  intro hchain
  have := List.chain'_iff_pairwise.mp hchain
  simp at this

/-- Witness for C3: the boundary-table properties at a concrete parse. -/
theorem C3_witness :
    (parseText "a b".toList 250).pageStarts ≠ [] ∧
    List.Chain' (· < ·) (parseText "a b".toList 250).pageStarts ∧
    ((parseText "a b".toList 250).paragraphStarts ≠ [] ∧
      (parseText "a b".toList 250).paragraphStarts.head? = some 0) ∧
    (∀ i, getPageForWordIndex (parseText "a b".toList 250) i <
      (parseText "a b".toList 250).pageStarts.length) := by
  have hw : 1 ≤ (parseText "a b".toList 250).totalWords := by
    have h : parseText "a b".toList 250 =
        ⟨[⟨['a'], 0, 0, false, false⟩, ⟨['b'], 0, 0, false, false⟩], [0], [0], 2, 1, 1⟩ := by
      simp [parseText, splitParasGo, lastNlInRun, trim, jsWs, wsTokensGo, parseTextGo,
        ptStartPara, ptParaToks, ptEndPara, pushWord, rewritePagesGo, splitOnDashes, splitChar,
        hasDashMark, Char.ext_iff]
    rw [h]
    simp
  exact ⟨(C3_parseText_boundaries "a b".toList 250 (by omega)).1,
    (C3_parseText_boundaries "a b".toList 250 (by omega)).2.2.1,
    (C3_parseText_boundaries "a b".toList 250 (by omega)).2.2.2.2.1 hw,
    (C3_parseText_boundaries "a b".toList 250 (by omega)).2.2.2.2.2.1⟩

/-! ## `parseFile` post-processing (src/lib/utils/adapters/index.ts:62-242) -/

/-- One annotated-markup item: either a word marker
`<span data-word-index="idx">txt</span>` or raw markup (tags, inter-span
whitespace).  The markup string is embedded shallowly as the list of these items. -/
inductive HtmlItem where
  | span (idx : Nat) (txt : Tok)
  | raw (s : Tok)
deriving DecidableEq

/-- `ChapterContent` (epub-parser.ts:9-17); the `imageUrls` blob-URL map is a
browser resource handle and is not modelled. -/
structure ChapterContent where
  chapterIndex : Nat
  html : List HtmlItem
  wordRange : Int × Int
deriving DecidableEq

/-- The preview payload touched by `parseFile` (`chapterStarts`,
`chapterContents`). -/
structure PreviewContent where
  chapterStarts : List Nat
  chapterContents : List ChapterContent
deriving DecidableEq

/-- Count of nonempty words on one provisional page
(adapters/index.ts:91-95): indices `start ≤ i < endExcl`, out-of-range
accesses are skipped (`words[i]?.text?.trim()`). -/
def tinyCount (words : List ParsedWord) (start endExcl : Nat) : Nat :=
  ((words.drop start).take (endExcl - start)).countP fun w => !(trim w.text).isEmpty

/-- The page-merging loop of adapters/index.ts:87-105: accumulate nonempty word
counts; when the running count reaches 20 (and a next boundary exists), push that
next boundary and reset.  The last page never pushes. -/
def tinyGo (words : List ParsedWord) : Nat → List Nat → List Nat → List Nat
  | _, acc, [] => acc
  | _, acc, [_] => acc
  | cnt, acc, p :: q :: rest =>
    let c := cnt + tinyCount words p q
    if 20 ≤ c then tinyGo words 0 (acc ++ [q]) (q :: rest)
    else tinyGo words c acc (q :: rest)

/-- The tiny-page merge pass of `parseFile` (adapters/index.ts:77-125).  The
backward scan rewriting each word's `pageIndex` (lines 110-120) is exactly
`lookupLastLEGo`. -/
def tinyPass (doc : ParsedDocument) : ParsedDocument :=
  if 1 < doc.pageStarts.length ∧ 0 < doc.words.length then
    let newPageStarts := tinyGo doc.words 0 [0] doc.pageStarts
    if newPageStarts.length < doc.pageStarts.length then
      { doc with
        words := doc.words.mapIdx fun i w =>
          { w with pageIndex := lookupLastLEGo newPageStarts i newPageStarts.length },
        pageStarts := newPageStarts,
        totalPages := newPageStarts.length }
    else doc
  else doc

/-- A `ParsedWord` with no properties: the result of spreading an out-of-range
(JavaScript `undefined`) array element.  The proofs only use states where the
access is in range. -/
def defaultWord : ParsedWord := ⟨[], 0, 0, false, false⟩

/-- The inner `while` scan of the word-array rebuild (adapters/index.ts:154-174):
starting from `consumed = 1` and `concat = wordTexts[srcIdx]`, keep consuming
source tokens while their concatenation is a prefix of the merged token, stopping
(with index-map writes) at an exact match, at a mismatch, or at the `consumed < 4`
cap. -/
def scanRun (wordTexts : List Tok) (merged : Tok) (srcIdx newIdx : Nat) :
    Nat → Tok → List Int → Nat × List Int
  | consumed, concat, im =>
    if srcIdx + consumed < wordTexts.length ∧ consumed < 4 then
      let nextConcat := concat ++ wordTexts.getD (srcIdx + consumed) []
      if nextConcat = merged then
        (consumed + 1,
          (List.range consumed).foldl (fun m j => m.set (srcIdx + 1 + j) (newIdx : Int)) im)
      else if nextConcat.isPrefixOf merged then
        scanRun wordTexts merged srcIdx newIdx (consumed + 1) nextConcat
          (im.set (srcIdx + consumed) (newIdx : Int))
      else (consumed, im)
    else (consumed, im)
termination_by consumed _ _ => 4 - consumed
decreasing_by omega

/-- The `for (const mergedText of mergedTexts)` rebuild loop
(adapters/index.ts:141-177): push `{...srcWord, text: mergedText}`, record
`indexMap[srcIdx] = newIdx`, scan forward, and advance the cursor. -/
def rebuildGo (words : List ParsedWord) (wordTexts : List Tok) :
    List Tok → Nat → Nat → List ParsedWord → List Int → List ParsedWord × List Int
  | [], _, _, nw, im => (nw, im)
  | m :: ms, srcIdx, newIdx, nw, im =>
    let srcWord := words.getD srcIdx defaultWord
    let im1 := im.set srcIdx (newIdx : Int)
    let s := scanRun wordTexts m srcIdx newIdx 1 (wordTexts.getD srcIdx []) im1
    rebuildGo words wordTexts ms (srcIdx + s.1) (newIdx + 1)
      (nw ++ [{ srcWord with text := m }]) s.2

/-- The whole rebuild (adapters/index.ts:135-177): new word array plus the
old-to-new index map (initialised to all `-1`). -/
def rebuildWords (words : List ParsedWord) (mergedTexts : List Tok) :
    List ParsedWord × List Int :=
  rebuildGo words (words.map (·.text)) mergedTexts 0 0 []
    (List.replicate words.length (-1))

/-- Mapping of one old index through the index map: kept when defined and
nonnegative, otherwise unchanged (adapters/index.ts:189-196 and 231-235). -/
def remapIdx (im : List Int) (old : Nat) : Nat :=
  let n := im.getD old (-1)
  if 0 ≤ n then n.toNat else old

/-- The `data-word-index` attribute rewrite (adapters/index.ts:189-196). -/
def remapHtml (im : List Int) (html : List HtmlItem) : List HtmlItem :=
  html.map fun item =>
    match item with
    | .span i t => .span (remapIdx im i) t
    | .raw s => .raw s

/-- Fixed point of the adjacent-span coalescing rewrite
(adapters/index.ts:202-209): two spans with the same index separated by nothing or
by whitespace-only raw markup are merged, dropping the whitespace (the regex
replacement keeps only the two span bodies). -/
def coalesceSpans : List HtmlItem → List HtmlItem
  | HtmlItem.span i t :: HtmlItem.span j u :: r =>
    if i = j then coalesceSpans (HtmlItem.span i (t ++ u) :: r)
    else HtmlItem.span i t :: coalesceSpans (HtmlItem.span j u :: r)
  | HtmlItem.span i t :: HtmlItem.raw s :: HtmlItem.span j u :: r =>
    if i = j ∧ s.all jsWs then coalesceSpans (HtmlItem.span i (t ++ u) :: r)
    else HtmlItem.span i t :: coalesceSpans (HtmlItem.raw s :: HtmlItem.span j u :: r)
  | x :: r => x :: coalesceSpans r
  | [] => []
termination_by l => l.length
decreasing_by all_goals simp

/-- `indexMap[startOld] ?? 0` (adapters/index.ts:213): an out-of-range index gives
0; an in-range `-1` entry is kept as is. -/
def mapStart (im : List Int) (startOld : Int) : Int :=
  if 0 ≤ startOld ∧ startOld < (im.length : Int) then im.getD startOld.toNat (-1) else 0

/-- The backward search for the last valid mapped index in
`[startOld, endOld]` (adapters/index.ts:215-221). -/
def lastValidGo (im : List Int) (startOld : Int) : Int → Nat → Int → Int
  | _, 0, dflt => dflt
  | i, fuel + 1, dflt =>
    if i < startOld then dflt
    else if 0 ≤ i ∧ i < (im.length : Int) ∧ 0 ≤ im.getD i.toNat (-1) then im.getD i.toNat (-1)
    else lastValidGo im startOld (i - 1) fuel dflt

/-- `endNew` (adapters/index.ts:214-221); the fuel covers every loop iteration. -/
def mapEnd (im : List Int) (startOld endOld : Int) (init : Int) : Int :=
  lastValidGo im startOld endOld ((endOld - startOld).toNat + 1) init

/-- The per-chapter preview rewrite (adapters/index.ts:184-228). -/
def remapChapter (im : List Int) (ch : ChapterContent) : ChapterContent :=
  let startNew := mapStart im ch.wordRange.1
  { ch with
    html := coalesceSpans (remapHtml im ch.html),
    wordRange := (startNew, mapEnd im ch.wordRange.1 ch.wordRange.2 startNew) }

/-- The preview rewrite (adapters/index.ts:183-237): chapter contents and
`chapterStarts` are remapped through the index map. -/
def remapPreview (im : List Int) (pv : PreviewContent) : PreviewContent :=
  { chapterStarts := pv.chapterStarts.map (remapIdx im),
    chapterContents := pv.chapterContents.map (remapChapter im) }

/-- The global punctuation re-merge pass of `parseFile`
(adapters/index.ts:127-239). -/
def mergePass (doc : ParsedDocument) (pv : Option PreviewContent) :
    ParsedDocument × Option PreviewContent :=
  if 0 < doc.words.length then
    let wordTexts := doc.words.map (·.text)
    let mergedTexts := mergeOrphanedPunctuation wordTexts
    if mergedTexts.length ≠ wordTexts.length then
      let r := rebuildWords doc.words mergedTexts
      ({ doc with words := r.1, totalWords := r.1.length }, pv.map (remapPreview r.2))
    else (doc, pv)
  else (doc, pv)

/-- The two post-processing passes of `parseFile`, in source order
(adapters/index.ts:75-239). -/
def parseFilePost (doc : ParsedDocument) (pv : Option PreviewContent) :
    ParsedDocument × Option PreviewContent :=
  mergePass (tinyPass doc) pv

/-- A concrete adapter output: one 25-word page (20 plain words and an orphaned
punctuation cluster that merges 5 tokens into 1) followed by a 1-word page. -/
def c1Doc : ParsedDocument :=
  ⟨List.replicate 20 ⟨['w'], 0, 0, false, false⟩ ++
    [⟨['('], 0, 0, false, false⟩, ⟨['a'], 0, 0, false, false⟩, ⟨[')'], 0, 0, false, false⟩,
     ⟨[','], 0, 0, false, false⟩, ⟨['.'], 0, 0, false, false⟩, ⟨['z'], 0, 1, false, false⟩],
   [0], [0, 25], 26, 1, 2⟩

/-- C1 counterexample: after `parseFile`'s post-processing of `c1Doc` the word count
shrinks from 26 to 22, but the document's `pageStarts` is left at `[0, 25]` — the
entry 25 is not remapped and is no longer a valid index into the rewritten word
array (25 is not less than the new `totalWords` 22). -/
theorem C1_counterexample :
    (parseFilePost c1Doc none).1.totalWords = 22 ∧
    (parseFilePost c1Doc none).1.pageStarts = [0, 25] ∧
    ¬ ∀ p ∈ (parseFilePost c1Doc none).1.pageStarts,
        p < (parseFilePost c1Doc none).1.totalWords := by
  have h : (parseFilePost c1Doc none).1.totalWords = 22 ∧
      (parseFilePost c1Doc none).1.pageStarts = [0, 25] := by
    constructor <;>
    simp [parseFilePost, c1Doc, tinyPass, tinyGo, tinyCount, lookupLastLEGo, mergePass,
      mergeOrphanedPunctuation, absorbTrailing, isLeadingPunct, isTrailingPunct, leadingChars,
      trailingChars, rebuildWords, rebuildGo, scanRun, trim, jsWs, Char.ext_iff,
      List.replicate, defaultWord]
  refine ⟨h.1, h.2, ?_⟩
  intro hall
  have := hall 25 (by rw [h.2]; simp)
  rw [h.1] at this
  omega

/-- A six-word document whose first five tokens merge into one: the merge run has
length 5, beyond the rebuild scan's `consumed < 4` cap. -/
def c10Doc : ParsedDocument :=
  ⟨[⟨['('], 0, 0, false, false⟩, ⟨['a'], 0, 0, false, false⟩, ⟨[')'], 0, 0, false, false⟩,
    ⟨[','], 0, 0, false, false⟩, ⟨['.'], 0, 0, false, false⟩, ⟨['z'], 1, 1, false, false⟩],
   [0, 5], [0, 5], 6, 2, 2⟩

/-- C10 counterexample: in `c10Doc` the second merged run is the single word `"z"`
at source index 5, whose `paragraphIndex`/`pageIndex` are 1/1; but because the
first run has 5 tokens and the scan cursor advances by at most 4, the rebuilt word
`"z"` takes its fields from source word 4 (`"."`, fields 0/0), not from the first
word of its own run. -/
theorem C10_counterexample :
    mergeRuns (c10Doc.words.map (·.text)) =
      [[['('], ['a'], [')'], [','], ['.']], [['z']]] ∧
    (mergePass c10Doc none).1.words.getD 1 defaultWord = ⟨['z'], 0, 0, false, false⟩ ∧
    c10Doc.words.getD 5 defaultWord = ⟨['z'], 1, 1, false, false⟩ := by
  refine ⟨?_, ?_, by decide⟩ <;>
  simp [c10Doc, mergeRuns, mergePass, mergeOrphanedPunctuation, absorbTrailing,
    isLeadingPunct, isTrailingPunct, leadingChars, trailingChars, rebuildWords, rebuildGo,
    scanRun, defaultWord, Char.ext_iff]

theorem rebuildGo_texts (words : List ParsedWord) (wordTexts : List Tok) :
    ∀ (ms : List Tok) (srcIdx newIdx : Nat) (nw : List ParsedWord) (im : List Int),
      (rebuildGo words wordTexts ms srcIdx newIdx nw im).1.map (·.text) =
        nw.map (·.text) ++ ms := by
  intro ms
  induction ms with
  | nil => intro srcIdx newIdx nw im; simp [rebuildGo]
  | cons m rest ih =>
    intro srcIdx newIdx nw im
    rw [rebuildGo, ih]
    simp

theorem rebuildGo_length (words : List ParsedWord) (wordTexts : List Tok)
    (ms : List Tok) (srcIdx newIdx : Nat) (nw : List ParsedWord) (im : List Int) :
    (rebuildGo words wordTexts ms srcIdx newIdx nw im).1.length = nw.length + ms.length := by
  have := congrArg List.length (rebuildGo_texts words wordTexts ms srcIdx newIdx nw im)
  simpa using this

theorem flatten_length_singletons {α : Type} (L : List (List α)) (h : ∀ r ∈ L, r ≠ [])
    (hlen : L.length = L.flatten.length) : L = L.flatten.map (fun x => [x]) := by
  induction L with
  | nil => simp
  | cons r rs ih =>
    have hr : r ≠ [] := h r (by simp)
    have hrest : rs.length ≤ rs.flatten.length :=
      length_le_length_flatten rs (fun q hq => h q (List.mem_cons_of_mem r hq))
    simp only [List.length_cons, List.flatten_cons, List.length_append] at hlen
    obtain ⟨a, ha⟩ : ∃ a, r = [a] := by
      cases r with
      | nil => exact absurd rfl hr
      | cons a as =>
        cases as with
        | nil => exact ⟨a, rfl⟩
        | cons b bs =>
          simp only [List.length_cons] at hlen
          omega
    subst ha
    simp only [List.length_cons, List.length_nil] at hlen
    have h2 := ih (fun q hq => h q (List.mem_cons_of_mem _ hq)) (by omega)
    rw [List.flatten_cons]
    simp only [List.singleton_append, List.map_cons]
    exact congrArg (fun l => [a] :: l) h2

theorem merge_length_eq_imp_id (W : List Tok)
    (h : (mergeOrphanedPunctuation W).length = W.length) : mergeOrphanedPunctuation W = W := by
  have hflat := mergeRuns_flatten W
  have hmap := mergeRuns_map_flatten W
  have hne := mergeRuns_ne_nil W
  have hlen : (mergeRuns W).length = (mergeRuns W).flatten.length := by
    rw [hflat, ← h, ← hmap]
    simp
  have hsing := flatten_length_singletons (mergeRuns W) hne hlen
  rw [← hmap, hsing, hflat]
  have : ((fun (r : List Tok) => r.flatten) ∘ fun x => [x]) = id := by
    funext x
    simp
  rw [List.map_map, this, List.map_id]

/-- C1 (amended): after the tiny-page merge, `parseFile`'s global punctuation
re-merge rewrites the word array to exactly `mergeOrphanedPunctuation` of the old
texts and updates `totalWords` when the count changes, and it remaps the preview
artifacts — `data-word-index` spans, span coalescing, `wordRange`, and the
chapter-start table — through the old-to-new index map; but the document's own
`pageStarts` and `paragraphStarts` tables are NOT remapped (they are returned
unchanged), so after a count-changing merge their entries need not be valid
indices into the rewritten word array. -/
theorem C1_mergePass_frame : ∀ (doc : ParsedDocument) (pv : Option PreviewContent),
    (mergePass doc pv).1.words.map (·.text) = mergeOrphanedPunctuation (doc.words.map (·.text)) ∧
    (mergePass doc pv).1.pageStarts = doc.pageStarts ∧
    (mergePass doc pv).1.paragraphStarts = doc.paragraphStarts ∧
    (mergePass doc pv).1.totalWords =
      (if (mergeOrphanedPunctuation (doc.words.map (·.text))).length = doc.words.length
        then doc.totalWords
        else (mergeOrphanedPunctuation (doc.words.map (·.text))).length) ∧
    (∀ p, pv = some p →
      (mergeOrphanedPunctuation (doc.words.map (·.text))).length ≠ doc.words.length →
      (mergePass doc pv).2 =
        some (remapPreview
          (rebuildWords doc.words (mergeOrphanedPunctuation (doc.words.map (·.text)))).2 p)) := by
  intro doc pv
  by_cases hw : 0 < doc.words.length
  · by_cases hchange :
      (mergeOrphanedPunctuation (doc.words.map (·.text))).length ≠ (doc.words.map (·.text)).length
    · have hpass : mergePass doc pv =
          ({ doc with
              words := (rebuildWords doc.words
                (mergeOrphanedPunctuation (doc.words.map (·.text)))).1,
              totalWords := (rebuildWords doc.words
                (mergeOrphanedPunctuation (doc.words.map (·.text)))).1.length },
            pv.map (remapPreview (rebuildWords doc.words
              (mergeOrphanedPunctuation (doc.words.map (·.text)))).2)) := by
        rw [mergePass, if_pos hw, if_pos hchange]
      rw [hpass]
      simp only [List.length_map] at hchange
      refine ⟨?_, rfl, rfl, ?_, ?_⟩
      · show (rebuildWords doc.words _).1.map (·.text) = _
        rw [rebuildWords, rebuildGo_texts]
        simp
      · show (rebuildWords doc.words _).1.length = _
        rw [if_neg hchange, rebuildWords, rebuildGo_length]
        simp
      · intro p hp _
        rw [hp]
        rfl
    · push_neg at hchange
      have hpass : mergePass doc pv = (doc, pv) := by
        rw [mergePass, if_pos hw, if_neg (by simpa using hchange)]
      rw [hpass]
      simp only [List.length_map] at hchange
      have hid := merge_length_eq_imp_id (doc.words.map (·.text)) (by simpa using hchange)
      refine ⟨hid.symm, rfl, rfl, by rw [if_pos (by simpa using hchange)], ?_⟩
      intro p _ hcontra
      exact absurd (by simpa using hchange) hcontra
  · have hnil : doc.words = [] := by
      cases h : doc.words with
      | nil => rfl
      | cons a as => rw [h] at hw; simp at hw
    have hpass : mergePass doc pv = (doc, pv) := by
      rw [mergePass, if_neg hw]
    rw [hpass, hnil]
    refine ⟨by simp [mergeOrphanedPunctuation], rfl, rfl, by simp [mergeOrphanedPunctuation], ?_⟩
    intro p _ hcontra
    exact absurd (by simp [mergeOrphanedPunctuation]) hcontra

theorem getD_append_len {α : Type} (pre l : List α) (j : Nat) (d : α) :
    (pre ++ l).getD (pre.length + j) d = l.getD j d := by
  simp [List.getD, List.getElem?_append_right (by omega : pre.length ≤ pre.length + j)]

theorem getD_run (pre run rest : List Tok) (j : Nat) (h : j < run.length) :
    (pre ++ run ++ rest).getD (pre.length + j) [] = run.getD j [] := by
  rw [List.append_assoc, getD_append_len]
  simp [List.getD, List.getElem?_append_left h]

theorem append_ne_of_ne_nil (a u : Tok) (h : u ≠ []) : a ++ u ≠ a := by
  intro he
  exact h (by simpa using congrArg List.length he)

theorem not_isPrefixOf_of_longer (a b : Tok) (h : b.length < a.length) :
    a.isPrefixOf b = false := by
  by_contra hc
  have : a.isPrefixOf b = true := by
    cases hx : a.isPrefixOf b with
    | true => rfl
    | false => exact absurd hx hc
  have := (List.isPrefixOf_iff_prefix.mp this).length_le
  omega

-- step lemma: scan stops at consumed=c when the next token starts the following run
theorem scanRun_stop (T : List Tok) (merged : Tok) (srcIdx newIdx c : Nat) (concat : Tok)
    (im : List Int)
    (hstop : srcIdx + c < T.length → c < 4 →
      concat ++ T.getD (srcIdx + c) [] ≠ merged ∧
      (concat ++ T.getD (srcIdx + c) []).isPrefixOf merged = false) :
    scanRun T merged srcIdx newIdx c concat im = (c, im) := by
  rw [scanRun]
  split
  · rename_i hc
    obtain ⟨h1, h2⟩ := hstop hc.1 hc.2
    rw [if_neg h1, if_neg (by simp only [h2]; exact Bool.false_ne_true)]
  · rfl

theorem ne_of_length_ne (a b : Tok) (h : a.length ≠ b.length) : a ≠ b := by
  intro he
  exact h (congrArg List.length he)

theorem scanRun_exact' (T : List Tok) (merged : Tok) (srcIdx newIdx c : Nat)
    (concat next : Tok) (im : List Int)
    (hnext : T.getD (srcIdx + c) [] = next)
    (hguard : srcIdx + c < T.length) (hc : c < 4)
    (heq : concat ++ next = merged) :
    scanRun T merged srcIdx newIdx c concat im =
      (c + 1, (List.range c).foldl (fun m j => m.set (srcIdx + 1 + j) (newIdx : Int)) im) := by
  rw [scanRun, if_pos (And.intro hguard hc), hnext, if_pos heq]

theorem scanRun_step' (T : List Tok) (merged : Tok) (srcIdx newIdx c : Nat)
    (concat next : Tok) (im : List Int)
    (hnext : T.getD (srcIdx + c) [] = next)
    (hguard : srcIdx + c < T.length) (hc : c < 4)
    (hne : concat ++ next ≠ merged)
    (hpre : (concat ++ next).isPrefixOf merged = true) :
    scanRun T merged srcIdx newIdx c concat im =
      scanRun T merged srcIdx newIdx (c + 1) (concat ++ next)
        (im.set (srcIdx + c) (newIdx : Int)) := by
  rw [scanRun, if_pos (And.intro hguard hc), hnext, if_neg hne, if_pos hpre]

theorem scanRun_oob (T : List Tok) (merged : Tok) (srcIdx newIdx c : Nat)
    (concat : Tok) (im : List Int)
    (h : ¬(srcIdx + c < T.length ∧ c < 4)) :
    scanRun T merged srcIdx newIdx c concat im = (c, im) := by
  rw [scanRun, if_neg h]

theorem scanRun_consumed (pre run rest : List Tok)
    (hne : run ≠ []) (hlen : run.length ≤ 4)
    (htoks : ∀ t ∈ run, t ≠ [])
    (hhead : ∀ u, rest.head? = some u → u ≠ [])
    (im : List Int) (newIdx : Nat) :
    (scanRun (pre ++ run ++ rest) run.flatten pre.length newIdx 1
      ((pre ++ run ++ rest).getD pre.length []) im).1 = run.length := by
  have hT : (pre ++ run ++ rest).length = pre.length + run.length + rest.length := by
    simp
    omega
  have h0 : (pre ++ run ++ rest).getD pre.length [] = run.getD 0 [] := by
    have := getD_run pre run rest 0 (by cases run with
      | nil => exact absurd rfl hne
      | cons a as => simp)
    simpa using this
  match run, hne, hlen, htoks with
  | [a], _, _, htoks =>
    rw [h0]
    simp only [List.flatten_cons, List.flatten_nil, List.append_nil, List.getD_cons_zero]
    cases rest with
    | nil =>
      rw [scanRun_oob _ _ _ _ _ _ _ (by rw [hT]; simp)]
      rfl
    | cons u us =>
      have hu : u ≠ [] := hhead u rfl
      have hlu : 1 ≤ u.length := List.length_pos.mpr hu
      have hgetD : (pre ++ [a] ++ (u :: us)).getD (pre.length + 1) [] = u := by
        rw [show pre ++ [a] ++ (u :: us) = (pre ++ [a]) ++ (u :: us) by simp,
          show pre.length + 1 = (pre ++ [a]).length + 0 by simp, getD_append_len]
        rfl
      have hstop : pre.length + 1 < (pre ++ [a] ++ (u :: us)).length → 1 < 4 →
          (a ++ (pre ++ [a] ++ (u :: us)).getD (pre.length + 1) [] ≠ a) ∧
          ((a ++ (pre ++ [a] ++ (u :: us)).getD (pre.length + 1) []).isPrefixOf a = false) := by
        intro _ _
        rw [hgetD]
        exact ⟨append_ne_of_ne_nil a u hu,
          not_isPrefixOf_of_longer (a ++ u) a (by simp; omega)⟩
      rw [scanRun_stop _ _ _ _ _ _ _ hstop]
      rfl
  | [a, b], _, _, htoks =>
    rw [h0]
    simp only [List.flatten_cons, List.flatten_nil, List.append_nil, List.getD_cons_zero]
    rw [scanRun_exact' _ _ _ _ _ _ _ _
      (show (pre ++ [a, b] ++ rest).getD (pre.length + 1) [] = b by
        rw [getD_run pre [a, b] rest 1 (by simp)]
        rfl)
      (by rw [hT]; simp only [List.length_cons, List.length_nil]; omega) (by omega) rfl]
    rfl
  | [a, b, c], _, _, htoks =>
    have hlc : 1 ≤ c.length := List.length_pos.mpr (htoks c (by simp))
    rw [h0]
    simp only [List.flatten_cons, List.flatten_nil, List.append_nil, List.getD_cons_zero]
    rw [scanRun_step' _ _ _ _ _ _ _ _
      (show (pre ++ [a, b, c] ++ rest).getD (pre.length + 1) [] = b by
        rw [getD_run pre [a, b, c] rest 1 (by simp)]
        rfl)
      (by rw [hT]; simp only [List.length_cons, List.length_nil]; omega) (by omega)
      (by
        intro he
        have := congrArg List.length he
        simp only [List.length_append] at this
        omega)
      (List.isPrefixOf_iff_prefix.mpr ⟨c, by simp⟩)]
    rw [scanRun_exact' _ _ _ _ _ _ _ _
      (show (pre ++ [a, b, c] ++ rest).getD (pre.length + 2) [] = c by
        rw [getD_run pre [a, b, c] rest 2 (by simp)]
        rfl)
      (by rw [hT]; simp only [List.length_cons, List.length_nil]; omega) (by omega)
      (by simp)]
    rfl
  | [a, b, c, d], _, _, htoks =>
    have hlc : 1 ≤ c.length := List.length_pos.mpr (htoks c (by simp))
    have hld : 1 ≤ d.length := List.length_pos.mpr (htoks d (by simp))
    rw [h0]
    simp only [List.flatten_cons, List.flatten_nil, List.append_nil, List.getD_cons_zero]
    rw [scanRun_step' _ _ _ _ _ _ _ _
      (show (pre ++ [a, b, c, d] ++ rest).getD (pre.length + 1) [] = b by
        rw [getD_run pre [a, b, c, d] rest 1 (by simp)]
        rfl)
      (by rw [hT]; simp only [List.length_cons, List.length_nil]; omega) (by omega)
      (by
        intro he
        have := congrArg List.length he
        simp only [List.length_append] at this
        omega)
      (List.isPrefixOf_iff_prefix.mpr ⟨c ++ d, by simp⟩)]
    rw [scanRun_step' _ _ _ _ _ _ _ _
      (show (pre ++ [a, b, c, d] ++ rest).getD (pre.length + 2) [] = c by
        rw [getD_run pre [a, b, c, d] rest 2 (by simp)]
        rfl)
      (by rw [hT]; simp only [List.length_cons, List.length_nil]; omega) (by omega)
      (by
        intro he
        have := congrArg List.length he
        simp only [List.length_append] at this
        omega)
      (List.isPrefixOf_iff_prefix.mpr ⟨d, by simp⟩)]
    rw [scanRun_exact' _ _ _ _ _ _ _ _
      (show (pre ++ [a, b, c, d] ++ rest).getD (pre.length + 3) [] = d by
        rw [getD_run pre [a, b, c, d] rest 3 (by simp)]
        rfl)
      (by rw [hT]; simp only [List.length_cons, List.length_nil]; omega) (by omega)
      (by simp)]
    rfl
  | a :: b :: c :: d :: e :: ts, _, hlen, _ =>
    exact absurd hlen (by simp)

/-- The word array the rebuild loop is expected to produce when the scan stays
aligned: one word per run, fields from the run's first source word, text the run's
concatenation. -/
def expectedWords (words : List ParsedWord) : Nat → List (List Tok) → List ParsedWord
  | _, [] => []
  | s, r :: rs =>
    { words.getD s defaultWord with text := r.flatten } :: expectedWords words (s + r.length) rs

/-- Source index of the first word of run `k`. -/
def runStart (runs : List (List Tok)) (k : Nat) : Nat :=
  ((runs.take k).map List.length).sum

theorem rebuildGo_aligned (words : List ParsedWord) :
    ∀ (runs : List (List Tok)) (pre : List Tok) (nw : List ParsedWord) (im : List Int)
      (nIdx : Nat),
      words.map (·.text) = pre ++ runs.flatten →
      (∀ t ∈ runs.flatten, t ≠ []) →
      (∀ r ∈ runs, r ≠ [] ∧ r.length ≤ 4) →
      (rebuildGo words (words.map (·.text)) (runs.map (fun r => r.flatten)) pre.length nIdx nw
        im).1 = nw ++ expectedWords words pre.length runs := by
  intro runs
  induction runs with
  | nil =>
    intro pre nw im nIdx _ _ _
    simp [rebuildGo, expectedWords]
  | cons r rs ih =>
    intro pre nw im nIdx htext htoks hruns
    obtain ⟨hrne, hrlen⟩ := hruns r (by simp)
    have hsplit : words.map (·.text) = pre ++ r ++ rs.flatten := by
      rw [htext, List.flatten_cons, List.append_assoc]
    have hcons := scanRun_consumed pre r rs.flatten hrne hrlen
      (fun t ht => htoks t (by rw [List.flatten_cons]; exact List.mem_append.mpr (Or.inl ht)))
      (fun u hu => htoks u (by
        rw [List.flatten_cons]
        exact List.mem_append.mpr (Or.inr (List.mem_of_mem_head? (by rw [hu]; rfl)))))
      (im.set pre.length (nIdx : Int)) nIdx
    rw [List.map_cons]
    simp only [rebuildGo]
    rw [hsplit, hcons]
    have hih := ih (pre ++ r) (nw ++ [{ words.getD pre.length defaultWord with
        text := r.flatten }])
      ((scanRun (pre ++ r ++ rs.flatten) r.flatten pre.length nIdx 1
        ((pre ++ r ++ rs.flatten).getD pre.length []) (im.set pre.length (nIdx : Int))).2)
      (nIdx + 1)
      (by rw [hsplit, List.append_assoc])
      (fun t ht => htoks t (by rw [List.flatten_cons]; exact List.mem_append.mpr (Or.inr ht)))
      (fun q hq => hruns q (List.mem_cons_of_mem r hq))
    rw [hsplit] at hih
    rw [show pre.length + r.length = (pre ++ r).length by simp] at *
    rw [hih]
    simp [expectedWords]

theorem expectedWords_getD (words : List ParsedWord) :
    ∀ (runs : List (List Tok)) (s k : Nat), k < runs.length →
      (expectedWords words s runs).getD k defaultWord =
        { words.getD (s + runStart runs k) defaultWord with
          text := (runs.getD k []).flatten } := by
  intro runs
  induction runs with
  | nil => intro s k hk; simp at hk
  | cons r rs ih =>
    intro s k hk
    cases k with
    | zero => simp [expectedWords, runStart]
    | succ k =>
      have := ih (s + r.length) k (by simpa using hk)
      simp only [expectedWords, List.getD_cons_succ]
      rw [this]
      have hrs : runStart (r :: rs) (k + 1) = r.length + runStart rs k := by
        simp [runStart, List.take_succ_cons]
      rw [hrs]
      have : s + r.length + runStart rs k = s + (r.length + runStart rs k) := by omega
      rw [this]

theorem runStart_zero (runs : List (List Tok)) : runStart runs 0 = 0 := by
  simp [runStart]

theorem runStart_cons_succ (r : List Tok) (rs : List (List Tok)) (k : Nat) :
    runStart (r :: rs) (k + 1) = r.length + runStart rs k := by
  simp [runStart, List.take_succ_cons]

theorem map_singleton_runStart (W : List Tok) (k : Nat) (hk : k ≤ W.length) :
    runStart (W.map fun x => [x]) k = k := by
  induction W generalizing k with
  | nil =>
    have : k = 0 := by simpa using hk
    subst this
    simp [runStart]
  | cons a as ih =>
    cases k with
    | zero => simp [runStart]
    | succ k =>
      rw [List.map_cons, runStart_cons_succ, ih k (by simpa using hk)]
      simp only [List.length_cons, List.length_nil]
      omega

/-- C10 (amended): in `parseFile`'s punctuation re-merge, provided every source
word text is nonempty and no merged run exceeds 4 source tokens, every word of the
rebuilt array takes its `paragraphIndex`, `pageIndex`, `italic` and `bold` fields
unchanged from the first source word of the contiguous run merged into it, and
only its `text` (the run's concatenation) differs; the cap `consumed < 4` in the
rebuild scan makes the guarantee fail for longer runs. -/
theorem C10_rebuild_fields (doc : ParsedDocument) (pv : Option PreviewContent)
    (htoks : ∀ w ∈ doc.words, w.text ≠ [])
    (hruns : ∀ r ∈ mergeRuns (doc.words.map (·.text)), r.length ≤ 4) :
    ∀ k, k < (mergeRuns (doc.words.map (·.text))).length →
      (mergePass doc pv).1.words.getD k defaultWord =
        { doc.words.getD (runStart (mergeRuns (doc.words.map (·.text))) k) defaultWord with
          text := ((mergeRuns (doc.words.map (·.text))).getD k []).flatten } := by
  intro k hk
  have hflat := mergeRuns_flatten (doc.words.map (·.text))
  have hmap := mergeRuns_map_flatten (doc.words.map (·.text))
  have hne := mergeRuns_ne_nil (doc.words.map (·.text))
  have htoks' : ∀ t ∈ (mergeRuns (doc.words.map (·.text))).flatten, t ≠ [] := by
    rw [hflat]
    intro t ht
    obtain ⟨w, hw, rfl⟩ := List.mem_map.mp ht
    exact htoks w hw
  by_cases hw : 0 < doc.words.length
  · by_cases hchange :
      (mergeOrphanedPunctuation (doc.words.map (·.text))).length ≠
        (doc.words.map (·.text)).length
    · have hpass : (mergePass doc pv).1.words =
          (rebuildWords doc.words (mergeOrphanedPunctuation (doc.words.map (·.text)))).1 := by
        rw [mergePass, if_pos hw, if_pos hchange]
      rw [hpass, rebuildWords, ← hmap]
      have := rebuildGo_aligned doc.words (mergeRuns (doc.words.map (·.text))) [] []
        (List.replicate doc.words.length (-1)) 0 (by simpa using hflat.symm) htoks'
        (fun r hr => ⟨hne r hr, hruns r hr⟩)
      simp only [List.length_nil] at this
      rw [this]
      simpa using expectedWords_getD doc.words (mergeRuns (doc.words.map (·.text))) 0 k hk
    · push_neg at hchange
      have hpass : (mergePass doc pv).1 = doc := by
        rw [mergePass, if_pos hw, if_neg (by simpa using hchange)]
      rw [hpass]
      have hlen2 : (mergeRuns (doc.words.map (·.text))).length =
          (mergeRuns (doc.words.map (·.text))).flatten.length := by
        rw [hflat, ← hchange, ← hmap]
        simp
      have hsing := flatten_length_singletons _ hne hlen2
      rw [hflat] at hsing
      have hklen : k < doc.words.length := by
        rw [hsing] at hk
        simpa using hk
      have hstart : runStart (mergeRuns (doc.words.map (·.text))) k = k := by
        rw [hsing]
        exact map_singleton_runStart _ k (by simpa using le_of_lt hklen)
      have hklen2 : k < (doc.words.map (·.text)).length := by simpa using hklen
      have hgetd : (mergeRuns (doc.words.map (·.text))).getD k [] =
          [(doc.words.map (·.text)).getD k []] := by
        rw [hsing]
        simp [List.getD, List.getElem?_map, List.getElem?_eq_getElem hklen2,
          List.getElem?_eq_getElem hklen]
      rw [hstart, hgetd]
      have htext : (doc.words.map (·.text)).getD k [] =
          (doc.words.getD k defaultWord).text := by
        simp [List.getD, List.getElem?_map, List.getElem?_eq_getElem hklen]
      rw [List.flatten_cons, List.flatten_nil, List.append_nil, htext]
  · have hnil : doc.words = [] := by
      cases h : doc.words with
      | nil => rfl
      | cons a as => rw [h] at hw; simp at hw
    rw [hnil] at hk
    simp [mergeRuns] at hk

/-- A two-word document whose words merge ("a" "." becomes "a."), with a preview. -/
def c1WitnessDoc : ParsedDocument :=
  ⟨[⟨['a'], 0, 0, false, false⟩, ⟨['.'], 0, 0, false, false⟩], [0], [0], 2, 1, 1⟩

/-- A preview for `c1WitnessDoc`. -/
def c1WitnessPv : PreviewContent :=
  ⟨[0, 1], [⟨0, [HtmlItem.span 0 ['a'], HtmlItem.raw [' '], HtmlItem.span 1 ['.']], (0, 1)⟩]⟩

/-- Witness for C1: the frame equalities and the preview remap at a concrete
merge-changing document. -/
theorem C1_witness :
    (mergePass c1WitnessDoc (some c1WitnessPv)).1.pageStarts = c1WitnessDoc.pageStarts ∧
    (mergePass c1WitnessDoc (some c1WitnessPv)).1.paragraphStarts =
      c1WitnessDoc.paragraphStarts ∧
    (mergePass c1WitnessDoc (some c1WitnessPv)).2 =
      some (remapPreview
        (rebuildWords c1WitnessDoc.words
          (mergeOrphanedPunctuation (c1WitnessDoc.words.map (·.text)))).2 c1WitnessPv) := by
  have hne : (mergeOrphanedPunctuation (c1WitnessDoc.words.map (·.text))).length ≠
      c1WitnessDoc.words.length := by
    simp [c1WitnessDoc, mergeOrphanedPunctuation, absorbTrailing, isTrailingPunct,
      isLeadingPunct, leadingChars, trailingChars, Char.ext_iff]
  exact ⟨(C1_mergePass_frame c1WitnessDoc (some c1WitnessPv)).2.1,
    (C1_mergePass_frame c1WitnessDoc (some c1WitnessPv)).2.2.1,
    (C1_mergePass_frame c1WitnessDoc (some c1WitnessPv)).2.2.2.2 c1WitnessPv rfl hne⟩

/-- A three-word document with runs of length 2 and 1. -/
def c10WitnessDoc : ParsedDocument :=
  ⟨[⟨['a'], 0, 0, false, false⟩, ⟨['.'], 1, 1, false, false⟩, ⟨['b'], 2, 2, true, true⟩],
   [0], [0], 3, 1, 1⟩

/-- Witness for C10: the aligned-rebuild equation at a concrete document. -/
theorem C10_witness :
    (mergePass c10WitnessDoc none).1.words.getD 1 defaultWord =
      { c10WitnessDoc.words.getD
          (runStart (mergeRuns (c10WitnessDoc.words.map (·.text))) 1) defaultWord with
        text := ((mergeRuns (c10WitnessDoc.words.map (·.text))).getD 1 []).flatten } := by
  have hruns : mergeRuns (c10WitnessDoc.words.map (·.text)) = [[['a'], ['.']], [['b']]] := by
    simp [c10WitnessDoc, mergeRuns, isTrailingPunct, isLeadingPunct, trailingChars,
      leadingChars, Char.ext_iff]
  exact C10_rebuild_fields c10WitnessDoc none (by decide)
    (by rw [hruns]; decide) 1 (by rw [hruns]; decide)

/-! ## PalmDOC decompression (src/lib/utils/adapters/mobi-adapter.ts:49-90) -/

/-- The back-reference copy loop (mobi-adapter.ts:74-81): push one byte per step;
a position before the start of the output is zero-filled (`pos >= 0` check), and a
zero distance reads one past the end, which the JavaScript number array records as
`undefined` and the final `Uint8Array` conversion turns into 0 — modelled directly
as 0. -/
def backRefCopy (out : List Nat) (distance : Nat) : Nat → List Nat
  | 0 => out
  | n + 1 =>
    backRefCopy
      (out ++ [if out.length < distance then 0 else out.getD (out.length - distance) 0])
      distance n

/-- The decompression loop of `decompressPalmDoc` (mobi-adapter.ts:53-87): byte 0
is a literal NUL; 1..8 copy that many following bytes literally (clamped at end of
input); 0x09..0x7F are literal; 0x80..0xBF pair with the next byte as a
(distance, length) back-reference (stopping if there is no next byte); 0xC0.. emit
a space and the byte XOR 0x80. -/
def palmGo : List Nat → List Nat → List Nat
  | [], out => out
  | b :: rest, out =>
    if b = 0 then palmGo rest (out ++ [0])
    else if b ≤ 8 then palmGo (rest.drop b) (out ++ rest.take b)
    else if b ≤ 0x7f then palmGo rest (out ++ [b])
    else if b ≤ 0xbf then
      match rest with
      | [] => out
      | next :: rest2 =>
        palmGo rest2
          (backRefCopy out ((((b &&& 0x3f) <<< 8) ||| next) >>> 3) ((next &&& 0x07) + 3))
    else palmGo rest (out ++ [0x20, b ^^^ 0x80])
termination_by inp _ => inp.length
decreasing_by
  · simp
  · have := List.length_drop b rest
    simp only [List.length_cons] at *
    omega
  · simp
  · simp only [List.length_cons]
    omega
  · simp

/-- `decompressPalmDoc` (mobi-adapter.ts:49-90). -/
def decompressPalmDoc (compressed : List Nat) : List Nat := palmGo compressed []

/-- C6: `decompressPalmDoc` is a total function on every input byte list and never
fails: control bytes follow the dispatch exactly — 0 emits a literal NUL; 1..8 copy
that many following input bytes literally; 0x09..0x7F emit the byte itself;
0x80..0xBF pair with the next byte as a back-reference with
`distance = ((byte&0x3F)<<8 | next) >> 3` and `length = (next&0x07)+3` copied
byte-by-byte from `output.length - distance`; bytes ≥ 0xC0 emit a space and the
byte XOR 0x80 — and a back-reference whose distance exceeds the current output
length pushes a zero instead of failing, as the crafted input (a literal run, a
back-reference past the start, a space-plus-literal byte) shows concretely. -/
theorem C6_decompressPalmDoc_dispatch :
    (∀ rest out, palmGo (0 :: rest) out = palmGo rest (out ++ [0]))
    ∧ (∀ b rest out, 1 ≤ b → b ≤ 8 →
        palmGo (b :: rest) out = palmGo (rest.drop b) (out ++ rest.take b))
    ∧ (∀ b rest out, 9 ≤ b → b ≤ 0x7f → palmGo (b :: rest) out = palmGo rest (out ++ [b]))
    ∧ (∀ b next rest out, 0x80 ≤ b → b ≤ 0xbf →
        palmGo (b :: next :: rest) out =
          palmGo rest
            (backRefCopy out ((((b &&& 0x3f) <<< 8) ||| next) >>> 3) ((next &&& 0x07) + 3)))
    ∧ (∀ b out, 0x80 ≤ b → b ≤ 0xbf → palmGo [b] out = out)
    ∧ (∀ b rest out, 0xc0 ≤ b → palmGo (b :: rest) out = palmGo rest (out ++ [0x20, b ^^^ 0x80]))
    ∧ (∀ out d n, out.length < d → backRefCopy out d (n + 1) = backRefCopy (out ++ [0]) d n)
    ∧ decompressPalmDoc [2, 65, 66, 0x80, 0x28, 0xc1] = [65, 66, 0, 0, 0, 0x20, 65] := by
  have e1 : ∀ rest out, palmGo (0 :: rest) out = palmGo rest (out ++ [0]) := by
    intro rest out
    rw [palmGo.eq_def]
    dsimp only
    rw [if_pos rfl]
  have e2 : ∀ b rest out, 1 ≤ b → b ≤ 8 →
      palmGo (b :: rest) out = palmGo (rest.drop b) (out ++ rest.take b) := by
    intro b rest out h1 h2
    rw [palmGo.eq_def]
    dsimp only
    rw [if_neg (by omega), if_pos (by omega)]
  have e3 : ∀ b rest out, 9 ≤ b → b ≤ 0x7f →
      palmGo (b :: rest) out = palmGo rest (out ++ [b]) := by
    intro b rest out h1 h2
    rw [palmGo.eq_def]
    dsimp only
    rw [if_neg (by omega), if_neg (by omega), if_pos (by omega)]
  have e4 : ∀ b next rest out, 0x80 ≤ b → b ≤ 0xbf →
      palmGo (b :: next :: rest) out =
        palmGo rest
          (backRefCopy out ((((b &&& 0x3f) <<< 8) ||| next) >>> 3) ((next &&& 0x07) + 3)) := by
    intro b next rest out h1 h2
    rw [palmGo.eq_def]
    dsimp only
    rw [if_neg (by omega), if_neg (by omega), if_neg (by omega), if_pos (by omega)]
  have e5 : ∀ b out, 0x80 ≤ b → b ≤ 0xbf → palmGo [b] out = out := by
    intro b out h1 h2
    rw [palmGo.eq_def]
    dsimp only
    rw [if_neg (by omega), if_neg (by omega), if_neg (by omega), if_pos (by omega)]
  have e6 : ∀ b rest out, 0xc0 ≤ b →
      palmGo (b :: rest) out = palmGo rest (out ++ [0x20, b ^^^ 0x80]) := by
    intro b rest out h1
    rw [palmGo.eq_def]
    dsimp only
    rw [if_neg (by omega), if_neg (by omega), if_neg (by omega), if_neg (by omega)]
  have e7 : ∀ (out : List Nat) d n, out.length < d →
      backRefCopy out d (n + 1) = backRefCopy (out ++ [0]) d n := by
    intro out d n h
    rw [backRefCopy, if_pos h]
  have e0 : ∀ out, palmGo [] out = out := by
    intro out
    rw [palmGo.eq_def]
  refine ⟨e1, e2, e3, e4, e5, e6, e7, ?_⟩
  rw [decompressPalmDoc, e2 2 [65, 66, 0x80, 0x28, 0xc1] [] (by omega) (by omega)]
  show palmGo [0x80, 0x28, 0xc1] [65, 66] = _
  rw [e4 0x80 0x28 [0xc1] [65, 66] (by omega) (by omega)]
  show palmGo [0xc1] [65, 66, 0, 0, 0] = _
  rw [e6 0xc1 [] [65, 66, 0, 0, 0] (by omega)]
  show palmGo [] [65, 66, 0, 0, 0, 0x20, 65] = _
  rw [e0]

/-- Witness for C6: every dispatch case applied at a concrete input. -/
theorem C6_witness :
    palmGo [3, 7, 8, 9] [] = palmGo [] [7, 8, 9]
    ∧ palmGo [65] [1] = palmGo [] [1, 65]
    ∧ palmGo [0x80, 0x28] [65] = palmGo [] (backRefCopy [65] 5 3)
    ∧ palmGo [0x90] [4] = [4]
    ∧ palmGo [0xc1] [] = palmGo [] [0x20, 0x41]
    ∧ backRefCopy [65] 5 3 = backRefCopy [65, 0] 5 2 :=
  ⟨by
    have := C6_decompressPalmDoc_dispatch.2.1 3 [7, 8, 9] [] (by omega) (by omega)
    simpa using this,
   C6_decompressPalmDoc_dispatch.2.2.1 65 [] [1] (by omega) (by omega),
   by
    have := C6_decompressPalmDoc_dispatch.2.2.2.1 0x80 0x28 [] [65] (by omega) (by omega)
    exact this.trans (by show palmGo [] (backRefCopy [65] 5 3) = _; rfl),
   C6_decompressPalmDoc_dispatch.2.2.2.2.1 0x90 [4] (by omega) (by omega),
   by
    have := C6_decompressPalmDoc_dispatch.2.2.2.2.2.1 0xc1 [] [] (by omega)
    exact this.trans (by show palmGo [] [0x20, 0x41] = _; rfl),
   C6_decompressPalmDoc_dispatch.2.2.2.2.2.2.1 [65] 5 2 (by simp)⟩

/-! ## MOBI container parsing (mobi-adapter.ts:24-44 `readPalmHeader`,
441-607 `parseMobiFile`).  The model covers the container stages (header, record
table, record 0 fields, text-record decompression, image-record scan, empty-text
check); the DOM-based HTML stage `parseMobiContent` is not container parsing and
is out of scope, so the success value carries the decoded text bytes.  `TextDecoder`
is non-fatal and never throws, and it produces a nonempty string exactly for
nonempty input bytes, so text is kept as bytes. -/

/-- The terminal failures of `parseMobiFile`: the thrown `Error`s at
mobi-adapter.ts:456 (file too small), 463 (record count < 2), 485 (DRM), 549
(HUFF/CDIC) and 593 (no text), plus the `RangeError` a `DataView`/`Uint8Array`
access throws on an out-of-bounds or negative-length slice. -/
inductive MobiErr where
  | tooSmall
  | rangeError
  | notEnoughRecords
  | drmProtected
  | huffCdic
  | noText
deriving DecidableEq

/-- The warnings pushed by `parseMobiFile` (mobi-adapter.ts:475, 553). -/
inductive MobiWarn where
  | palmDocFormat
  | unknownCompression (code : Nat)
deriving DecidableEq

/-- Image kinds of `detectImageType` (mobi-adapter.ts:415-436). -/
inductive ImgType where
  | jpeg
  | png
  | gif
  | bmp
deriving DecidableEq

/-- Container-level success: decoded text bytes, title bytes, indices of
recognized image records (blob-URL creation is a browser side effect), warnings. -/
structure MobiOk where
  textBytes : List Nat
  title : List Nat
  imageRecords : List Nat
  warnings : List MobiWarn
deriving DecidableEq

/-- `DataView.getUint16(off, false)` on a byte list: big-endian, throwing
(`none`) when out of bounds. -/
def readU16 (d : List Nat) (off : Nat) : Option Nat :=
  if off + 2 ≤ d.length then some (d.getD off 0 * 256 + d.getD (off + 1) 0) else none

/-- `DataView.getUint32(off, false)`: big-endian, `none` when out of bounds. -/
def readU32 (d : List Nat) (off : Nat) : Option Nat :=
  if off + 4 ≤ d.length then
    some (((d.getD off 0 * 256 + d.getD (off + 1) 0) * 256 + d.getD (off + 2) 0) * 256 +
      d.getD (off + 3) 0)
  else none

/-- `new Uint8Array(buffer, start, len)`: `none` models the thrown `RangeError`
when the slice leaves the buffer. -/
def sliceB (d : List Nat) (start len : Nat) : Option (List Nat) :=
  if start + len ≤ d.length then some ((d.drop start).take len) else none

/-- `readPalmHeader` (mobi-adapter.ts:24-44): the null-terminated name from the
first 32 bytes, the record count at offset 76, and the big-endian offset table at
78 + 8·i. -/
def readPalmHeaderM (d : List Nat) : Option (List Nat × Nat × List Nat) := do
  let nameB ← sliceB d 0 32
  let rc ← readU16 d 76
  let offsets ← (List.range rc).mapM fun i => readU32 d (78 + 8 * i)
  pure (nameB.takeWhile (· ≠ 0), rc, offsets)

/-- The JavaScript whitespace bytes relevant to `String.prototype.trim()` after a
`String.fromCharCode` (latin-1) conversion. -/
def jsWsByte (b : Nat) : Bool :=
  decide (b = 9 ∨ b = 10 ∨ b = 11 ∨ b = 12 ∨ b = 13 ∨ b = 32 ∨ b = 0xa0)

/-- `fullName.trim()` on title bytes. -/
def trimBytes (l : List Nat) : List Nat :=
  ((l.dropWhile jsWsByte).reverse.dropWhile jsWsByte).reverse

/-- The slice of record `i`: start at `recordOffsets[i]`, end at the next offset or
end of file (mobi-adapter.ts:533-538, 571-576); a backwards or out-of-bounds slice
throws. -/
def recordSlice (d : List Nat) (offsets : List Nat) (i : Nat) : Except MobiErr (List Nat) :=
  let start := offsets.getD i 0
  let e := if i + 1 < offsets.length then offsets.getD (i + 1) 0 else d.length
  if e < start ∨ d.length < e then Except.error MobiErr.rangeError
  else Except.ok ((d.drop start).take (e - start))

/-- `detectImageType` (mobi-adapter.ts:415-436). -/
def detectImageType (b : List Nat) : Option ImgType :=
  if b.length < 4 then none
  else if b.getD 0 0 = 0xff ∧ b.getD 1 0 = 0xd8 ∧ b.getD 2 0 = 0xff then some ImgType.jpeg
  else if b.getD 0 0 = 0x89 ∧ b.getD 1 0 = 0x50 ∧ b.getD 2 0 = 0x4e ∧ b.getD 3 0 = 0x47 then
    some ImgType.png
  else if b.getD 0 0 = 0x47 ∧ b.getD 1 0 = 0x49 ∧ b.getD 2 0 = 0x46 ∧ b.getD 3 0 = 0x38 then
    some ImgType.gif
  else if b.getD 0 0 = 0x42 ∧ b.getD 1 0 = 0x4d then some ImgType.bmp
  else none

/-- The text-record loop (mobi-adapter.ts:532-566) over its (statically bounded)
index range, threading the decoded bytes, the warnings, and a count of
`decompressPalmDoc` invocations. -/
def textLoopGo (d : List Nat) (offsets : List Nat) (compression : Nat) :
    List Nat → List Nat → Nat → List MobiWarn →
      Except MobiErr (List Nat × List MobiWarn) × Nat
  | [], acc, cnt, warns => (Except.ok (acc, warns), cnt)
  | i :: is, acc, cnt, warns =>
    match recordSlice d offsets i with
    | Except.error e => (Except.error e, cnt)
    | Except.ok recordData =>
      if compression = 1 then textLoopGo d offsets compression is (acc ++ recordData) cnt warns
      else if compression = 2 then
        textLoopGo d offsets compression is (acc ++ decompressPalmDoc recordData) (cnt + 1)
          warns
      else if compression = 17480 then (Except.error MobiErr.huffCdic, cnt)
      else
        textLoopGo d offsets compression is (acc ++ recordData) cnt
          (warns ++ [MobiWarn.unknownCompression compression])

/-- The image-record scan (mobi-adapter.ts:569-588): slice each record, keep the
indices whose bytes match a known image signature; unrecognized records are
skipped. -/
def imageLoopGo (d : List Nat) (offsets : List Nat) :
    List Nat → List Nat → Except MobiErr (List Nat)
  | [], acc => Except.ok acc
  | i :: is, acc =>
    match recordSlice d offsets i with
    | Except.error e => Except.error e
    | Except.ok recordData =>
      match detectImageType recordData with
      | some _ => imageLoopGo d offsets is (acc ++ [i])
      | none => imageLoopGo d offsets is acc

/-- `parseMobiFile` up to the container level (mobi-adapter.ts:441-597), paired
with the number of `decompressPalmDoc` calls made. -/
def parseMobi (d : List Nat) : Except MobiErr MobiOk × Nat :=
  if d.length < 100 then (Except.error MobiErr.tooSmall, 0)
  else
    match readPalmHeaderM d with
    | none => (Except.error MobiErr.rangeError, 0)
    | some (name, rc, offsets) =>
      if rc < 2 then (Except.error MobiErr.notEnoughRecords, 0)
      else
        let r0 := offsets.getD 0 0
        if d.length < r0 + 20 then (Except.error MobiErr.rangeError, 0)
        else
          let isMobi := (d.drop (r0 + 16)).take 4 = [77, 79, 66, 73]
          let warns0 : List MobiWarn := if isMobi then [] else [MobiWarn.palmDocFormat]
          match readU16 d r0, readU16 d (r0 + 12) with
          | some compression, some encryption =>
            if encryption ≠ 0 then (Except.error MobiErr.drmProtected, 0)
            else
              match readU16 d (r0 + 8) with
              | some textRecordCount =>
                let firstImageRecord :=
                  if isMobi then
                    match readU32 d (r0 + 20) with
                    | some hl => if 108 ≤ hl then (readU32 d (r0 + 108)).getD 0 else 0
                    | none => 0
                  else 0
                let title :=
                  if isMobi then
                    match readU32 d (r0 + 84), readU32 d (r0 + 88) with
                    | some fno, some fnl =>
                      if 0 < fnl ∧ fnl < 1000 then
                        match sliceB d (r0 + fno) fnl with
                        | some nb =>
                          if trimBytes (nb.takeWhile (· ≠ 0)) ≠ [] then
                            trimBytes (nb.takeWhile (· ≠ 0))
                          else name
                        | none => name
                      else name
                    | _, _ => name
                  else name
                match textLoopGo d offsets compression
                  (List.range' 1 (min textRecordCount (offsets.length - 1))) [] 0 warns0 with
                | (Except.error e, cnt) => (Except.error e, cnt)
                | (Except.ok (textAcc, warns1), cnt) =>
                  let imageStart :=
                    if 0 < firstImageRecord then firstImageRecord else textRecordCount + 1
                  match imageLoopGo d offsets
                    (List.range' imageStart (offsets.length - imageStart)) [] with
                  | Except.error e => (Except.error e, cnt)
                  | Except.ok imgs =>
                    if textAcc.length = 0 then (Except.error MobiErr.noText, cnt)
                    else (Except.ok ⟨textAcc, title, imgs, warns1⟩, cnt)
              | none => (Except.error MobiErr.rangeError, 0)
          | _, _ => (Except.error MobiErr.rangeError, 0)

lemma recordSlice_error {d offsets : List Nat} {i : Nat} {e : MobiErr}
    (h : recordSlice d offsets i = Except.error e) : e = MobiErr.rangeError := by
  unfold recordSlice at h
  dsimp only at h
  split at h
  all_goals split at h
  all_goals first
  | (injection h with h'
     exact h'.symm)
  | cases h

lemma textLoopGo_err (d offsets : List Nat) (compression : Nat) (hc : compression ≠ 17480)
    (is : List Nat) :
    ∀ (acc : List Nat) (cnt : Nat) (warns : List MobiWarn),
      (∃ i ∈ is, recordSlice d offsets i = Except.error MobiErr.rangeError) →
      (textLoopGo d offsets compression is acc cnt warns).1 =
        Except.error MobiErr.rangeError := by
  induction is with
  | nil =>
    intro acc cnt warns h
    simp at h
  | cons i is ih =>
    intro acc cnt warns h
    rcases hs : recordSlice d offsets i with e | rec
    · have he := recordSlice_error hs
      subst he
      simp only [textLoopGo, hs]
    · rcases h with ⟨j, hj, hje⟩
      rcases List.mem_cons.mp hj with rfl | hj'
      · rw [hje] at hs
        cases hs
      · simp only [textLoopGo, hs]
        by_cases h1 : compression = 1
        · rw [if_pos h1]
          exact ih _ _ _ ⟨j, hj', hje⟩
        · rw [if_neg h1]
          by_cases h2 : compression = 2
          · rw [if_pos h2]
            exact ih _ _ _ ⟨j, hj', hje⟩
          · rw [if_neg h2, if_neg hc]
            exact ih _ _ _ ⟨j, hj', hje⟩

/-- C7: for every Kindle-container byte stream that reaches the record-0 field
reads (big enough, well-formed header, at least 2 records, record 0 readable) and
whose 16-bit encryption field at record-0 offset 12 is non-zero, `parseMobiFile`
fails with the DRM-protected terminal error and `decompressPalmDoc` is never
invoked: the second component of `parseMobi`, which counts decompression calls,
is 0 (mobi-adapter.ts:479-486 throws before the text-record loop at 529-554). -/
theorem C7_drm_before_decompression (d name : List Nat) (rc : Nat) (offsets : List Nat)
    (enc : Nat)
    (h1 : 100 ≤ d.length)
    (h2 : readPalmHeaderM d = some (name, rc, offsets))
    (h3 : 2 ≤ rc)
    (h4 : offsets.getD 0 0 + 20 ≤ d.length)
    (h5 : readU16 d (offsets.getD 0 0 + 12) = some enc)
    (h6 : enc ≠ 0) :
    parseMobi d = (Except.error MobiErr.drmProtected, 0) := by
  have e1 : readU16 d (offsets.getD 0 0) =
      some (d.getD (offsets.getD 0 0) 0 * 256 + d.getD (offsets.getD 0 0 + 1) 0) := by
    rw [readU16, if_pos (by omega)]
  unfold parseMobi
  rw [if_neg (by omega), h2]
  dsimp only
  rw [if_neg (by omega), if_neg (by omega), e1, h5]
  dsimp only
  rw [if_pos h6]

/-- A 120-byte stream: record count 2 at offset 76, record 0 at offset 94, and
encryption field 1 at bytes 106-107 (record-0 offset 12). -/
def c7Stream : List Nat := (((List.replicate 120 0).set 77 2).set 81 94).set 107 1

/-- Witness for C7 on `c7Stream`. -/
theorem C7_witness : parseMobi c7Stream = (Except.error MobiErr.drmProtected, 0) :=
  C7_drm_before_decompression c7Stream [] 2 [94, 0] 1 (by decide) (by decide) (by decide)
    (by decide) (by decide) (by decide)

/-- A 244-byte MOBI stream with a NON-monotonic record offset table
`[126, 10, 12, 5, 238, 241]` (record 3 starts at 5, before record 2 at 12; the
slice of record 2 would be `[12, 5)`, invalid).  Record 0 sits at 126 after the
table: compression 1, one text record, encryption 0, ident "MOBI", header length
108, first image record 4.  Record 1 (bytes 10-11, "Hi") is the only text record;
records 2 and 3 fall in the gap between the last text record and the first image
record and are never sliced. -/
def c8Stream : List Nat :=
  [(10, 72), (11, 105), (77, 6), (81, 126), (89, 10), (97, 12), (105, 5), (113, 238),
    (121, 241), (127, 1), (135, 1), (142, 77), (143, 79), (144, 66), (145, 73),
    (149, 108), (237, 4)].foldl (fun d p => d.set p.1 p.2) (List.replicate 244 0)

/-- C8 counterexample: `c8Stream`'s offset table is non-monotonic (entry 3 is
smaller than entry 2) and record 2's slice is out of range, yet `parseMobi`
succeeds — no malformed-container error is raised, because offsets are only
validated when a record is actually sliced, and records in the gap between the
text records and the first image record are never processed
(mobi-adapter.ts:24-44 performs no monotonicity or bounds check on the table;
455-464 only checks size and record count). -/
theorem C8_counterexample :
    readPalmHeaderM c8Stream = some ([], 6, [126, 10, 12, 5, 238, 241]) ∧
    [126, 10, 12, 5, 238, 241].getD 3 0 < [126, 10, 12, 5, 238, 241].getD 2 0 ∧
    recordSlice c8Stream [126, 10, 12, 5, 238, 241] 2 = Except.error MobiErr.rangeError ∧
    parseMobi c8Stream = (Except.ok ⟨[72, 105], [], [], []⟩, 0) := by
  exact ⟨by decide, by decide, rfl, rfl⟩

/-- C8 (amended): the container checks that DO exist.  (1) A record count below 2
fails with the not-enough-records error (mobi-adapter.ts:462-464).  (2) A bad
record offset causes a failure only when the record is actually processed: if
some text record in the processed range `1 ≤ i ≤ textRecordCount`,
`i < offsets.length` has an out-of-range slice, the text loop's `Uint8Array`
slice throws and parsing fails with a range error (compression ≠ HUFF/CDIC so
the loop reaches the slice).  No up-front monotonicity or bounds check of the
whole table is performed — see the counterexample. -/
theorem C8_container_checks (d name : List Nat) (rc : Nat) (offsets : List Nat)
    (h1 : 100 ≤ d.length)
    (h2 : readPalmHeaderM d = some (name, rc, offsets)) :
    (rc < 2 → parseMobi d = (Except.error MobiErr.notEnoughRecords, 0)) ∧
    (∀ compression tRC : Nat,
      offsets.getD 0 0 + 20 ≤ d.length →
      2 ≤ rc →
      readU16 d (offsets.getD 0 0) = some compression →
      compression ≠ 17480 →
      readU16 d (offsets.getD 0 0 + 12) = some 0 →
      readU16 d (offsets.getD 0 0 + 8) = some tRC →
      (∃ i, 1 ≤ i ∧ i ≤ tRC ∧ i < offsets.length ∧
        recordSlice d offsets i = Except.error MobiErr.rangeError) →
      (parseMobi d).1 = Except.error MobiErr.rangeError) := by
  constructor
  · intro hrc
    unfold parseMobi
    rw [if_neg (by omega), h2]
    dsimp only
    rw [if_pos hrc]
  · intro compression tRC hb h3 hcomp hc henc htrc hbad
    unfold parseMobi
    rw [if_neg (by omega), h2]
    dsimp only
    rw [if_neg (by omega), if_neg (by omega), hcomp, henc]
    dsimp only
    rw [if_neg (by simp), htrc]
    dsimp only
    have hmem : ∃ i ∈ List.range' 1 (min tRC (offsets.length - 1)),
        recordSlice d offsets i = Except.error MobiErr.rangeError := by
      obtain ⟨i, hi1, hi2, hi3, hie⟩ := hbad
      exact ⟨i, List.mem_range'_1.mpr ⟨hi1, by omega⟩, hie⟩
    have htl := textLoopGo_err d offsets compression hc
      (List.range' 1 (min tRC (offsets.length - 1))) [] 0
      (if (d.drop (offsets.getD 0 0 + 16)).take 4 = [77, 79, 66, 73] then []
        else [MobiWarn.palmDocFormat]) hmem
    obtain ⟨r, cnt, hres⟩ : ∃ r cnt, textLoopGo d offsets compression
        (List.range' 1 (min tRC (offsets.length - 1))) [] 0
        (if (d.drop (offsets.getD 0 0 + 16)).take 4 = [77, 79, 66, 73] then []
          else [MobiWarn.palmDocFormat]) = (r, cnt) := ⟨_, _, rfl⟩
    rw [hres] at htl
    dsimp only at htl
    subst htl
    rw [hres]

/-- A 100-byte stream of zeros: record count 0. -/
def c8Small : List Nat := List.replicate 100 0

/-- A 120-byte stream with 2 records, record 0 at offset 94, compression 0,
encryption 0, one text record whose offset 200 lies beyond the file end. -/
def c8BadSlice : List Nat :=
  (((((List.replicate 120 0).set 77 2).set 81 94).set 89 200).set 103 1)

/-- Witness for C8 on `c8Small` (record count 0) and `c8BadSlice` (text record
offset past the end of the file). -/
theorem C8_witness :
    parseMobi c8Small = (Except.error MobiErr.notEnoughRecords, 0) ∧
    (parseMobi c8BadSlice).1 = Except.error MobiErr.rangeError :=
  ⟨(C8_container_checks c8Small [] 0 [] (by decide) (by decide)).1 (by decide),
   (C8_container_checks c8BadSlice [] 2 [94, 200] (by decide) (by decide)).2 0 1
     (by decide) (by decide) (by decide) (by decide) (by decide) (by decide)
     ⟨1, by decide, by decide, by decide, rfl⟩⟩

/-- Modelled from the spec: `orpIndex(word)` with Unicode-aware length — the ORP
module itself (`src/lib/utils/orp.ts`) is not among the provided sources, only a
design sketch in the project notes.  A word is represented as its list of
grapheme clusters (each cluster a list of code points, so a cluster may span
several UTF-16 code units); the spec's thresholds are on the cluster count `L`:
`L ≤ 2 → 0`, `L ≤ 6 → 1`, `L ≤ 9 → 2`, else `3`. -/
def orpIndex (graphemes : List (List Char)) : Nat :=
  if graphemes.length ≤ 2 then 0
  else if graphemes.length ≤ 6 then 1
  else if graphemes.length ≤ 9 then 2
  else 3

/-- C9: `orpIndex` depends only on the grapheme-cluster count (so surrogate-pair
or combining-mark clusters count once, regardless of code units), and it realises
the spec's threshold table: 0 for `L ≤ 2`, 1 for `3 ≤ L ≤ 6`, 2 for
`7 ≤ L ≤ 9`, 3 for `10 ≤ L`. -/
theorem C9_orpIndex_thresholds (g g' : List (List Char)) :
    (g.length = g'.length → orpIndex g = orpIndex g') ∧
    (g.length ≤ 2 → orpIndex g = 0) ∧
    (3 ≤ g.length ∧ g.length ≤ 6 → orpIndex g = 1) ∧
    (7 ≤ g.length ∧ g.length ≤ 9 → orpIndex g = 2) ∧
    (10 ≤ g.length → orpIndex g = 3) := by
  refine ⟨fun h => by rw [orpIndex, orpIndex, h], ?_, ?_, ?_, ?_⟩
  all_goals intro h
  all_goals rw [orpIndex]
  all_goals split_ifs <;> omega

/-- Witness for C9: the boundary grapheme-lengths 1, 2, 6, 7, 9, 10, 11 yield
0, 0, 1, 2, 2, 3, 3, and a 1-cluster word whose cluster is an astral code point
(two UTF-16 code units) scores like a 1-cluster ASCII word. -/
theorem C9_witness :
    orpIndex [['👍']] = orpIndex [['a']] ∧
    orpIndex [['👍']] = 0 ∧
    orpIndex [['e', '́'], ['b']] = 0 ∧
    orpIndex (List.replicate 6 ['x']) = 1 ∧
    orpIndex (List.replicate 7 ['x']) = 2 ∧
    orpIndex (List.replicate 9 ['x']) = 2 ∧
    orpIndex (List.replicate 10 ['x']) = 3 ∧
    orpIndex (List.replicate 11 ['x']) = 3 :=
  ⟨(C9_orpIndex_thresholds [['👍']] [['a']]).1 (by decide),
   (C9_orpIndex_thresholds [['👍']] []).2.1 (by decide),
   (C9_orpIndex_thresholds [['e', '́'], ['b']] []).2.1 (by decide),
   (C9_orpIndex_thresholds (List.replicate 6 ['x']) []).2.2.1 (by decide),
   (C9_orpIndex_thresholds (List.replicate 7 ['x']) []).2.2.2.1 (by decide),
   (C9_orpIndex_thresholds (List.replicate 9 ['x']) []).2.2.2.1 (by decide),
   (C9_orpIndex_thresholds (List.replicate 10 ['x']) []).2.2.2.2 (by decide),
   (C9_orpIndex_thresholds (List.replicate 11 ['x']) []).2.2.2.2 (by decide)⟩

end QR
